import Mathlib

/-!
Verification of the `questrade-excel-balancer` core (`src/main.py`).

The Python source is embedded shallowly:

* Python floats are modelled as exact rationals (`ℚ`); the source rounds
  every price to 2 decimals at construction and every deviation score to
  3 decimals, so all values handled by the program are decimal fractions
  that `ℚ` represents exactly.
* `round(x, n)` is modelled by `pyRound` (banker's rounding, as in Python).
* `str()` of a 3-decimal-rounded float is modelled by `floatStr3`
  (decimal rendering with trailing zeros trimmed, at least one fractional
  digit — the shortest-repr form Python prints for such values).
* Python `<` on strings is code-point lexicographic: `pyStrLt`.
* fallible Python code (raising `RuntimeError` / `ZeroDivisionError`)
  returns `Except String`.
* the candidate dictionary of `rebalance_portfolio` is an insertion-ordered
  association list (`dictGet` / `dictSet`), as Python dicts are.
* the unbounded `while` loop of `rebalance_portfolio` takes a fuel
  parameter and returns `none` when the fuel runs out or an exception
  propagates.

A second, heap-passing embedding (`hRebalance_portfolio`) makes object
identity and mutation explicit in order to settle the claim that the
allocator never mutates the starting portfolio: assets live in a store,
`copy.deepcopy` allocates fresh cells, and `buy_symbol` mutates a cell
in place.
-/

/-! ### Python primitives -/

/-- Python `round()` to an integer: round half to even (banker's rounding). -/
def pyRoundHalfEven (q : ℚ) : ℤ :=
  let f : ℤ := ⌊q⌋
  let r : ℚ := q - f
  if r < 1/2 then f
  else if 1/2 < r then f + 1
  else if f % 2 = 0 then f else f + 1

/-- Python `round(q, n)`. -/
def pyRound (q : ℚ) (n : ℕ) : ℚ := (pyRoundHalfEven (q * 10 ^ n) : ℚ) / 10 ^ n

/-- Render the fractional part `f < 1000` of a 3-decimal value the way
Python's `str()` does: trailing zeros trimmed, at least one digit. -/
def fracStr3 (f : ℕ) : String :=
  if f % 10 ≠ 0 then
    String.mk [Nat.digitChar (f / 100), Nat.digitChar (f / 10 % 10), Nat.digitChar (f % 10)]
  else if f % 100 ≠ 0 then
    String.mk [Nat.digitChar (f / 100), Nat.digitChar (f / 10 % 10)]
  else if f ≠ 0 then
    String.mk [Nat.digitChar (f / 100)]
  else "0"

/-- Python `str()` of a nonnegative float that is an exact multiple of
`1/1000` (every value produced by `round(_, 3)` in the source). -/
def floatStr3 (q : ℚ) : String :=
  let n : ℕ := (⌊q * 1000⌋).toNat
  Nat.repr (n / 1000) ++ "." ++ fracStr3 (n % 1000)

/-- Python `<` on lists of characters (code-point lexicographic). -/
def pyStrLtList : List Char → List Char → Bool
  | [], [] => false
  | [], _ :: _ => true
  | _ :: _, [] => false
  | a :: as, b :: bs =>
    if a < b then true
    else if b < a then false
    else pyStrLtList as bs

/-- Python `<` on strings. -/
def pyStrLt (a b : String) : Bool := pyStrLtList a.data b.data

/-- Python `str.upper` (ASCII range, which covers every symbol used). -/
def pyToUpper (s : String) : String :=
  String.mk (s.data.map (fun c =>
    if 97 ≤ c.toNat ∧ c.toNat ≤ 122 then Char.ofNat (c.toNat - 32) else c))

/-! ### Data model (`AssetClassification`, `PercentageTargets`, `Asset`) -/

/-- The `AssetClassification` enum of `main.py`. -/
inductive AssetClassification where
  | STOCKS_USA_SMALL_CAP
  | STOCKS_USA_SP500
  | STOCKS_EMERGING_MARKET
  | STOCKS_INTERNATIONAL
  | BONDS_CORP
  | BONDS_EMERGING_MARKET
  | REAL_ESTATE
deriving DecidableEq, Repr

/-- `get_percentage_target`.  The Python `match` statement compares the
argument against the seven enum members; an argument of `None` (the
classification `Asset._get_classification` yields for an unknown symbol)
matches no case and reaches the `raise RuntimeError` line. -/
def get_percentage_target : Option AssetClassification → Except String ℚ
  | some .STOCKS_USA_SMALL_CAP => .ok (10/100)
  | some .STOCKS_USA_SP500 => .ok (40/100)
  | some .STOCKS_EMERGING_MARKET => .ok (5/100)
  | some .STOCKS_INTERNATIONAL => .ok (25/100)
  | some .BONDS_CORP => .ok (10/100)
  | some .BONDS_EMERGING_MARKET => .ok (5/100)
  | some .REAL_ESTATE => .ok (5/100)
  | none => .error "case does not match any percentage target"

/-- An `Asset` object: the five instance fields set by `Asset.__init__`. -/
structure Asset where
  symbol : String
  market_price : ℚ
  quantity : ℤ
  description : String
  classification : Option AssetClassification
deriving DecidableEq, Repr

/-- `Asset._get_classification`: the if/elif chain over the upper-cased
symbol; falls off the end (returning `None`) for any other symbol. -/
def get_classification_of (symbol : String) : Option AssetClassification :=
  if symbol = "VNQ" then some .REAL_ESTATE
  else if symbol = "VWO" then some .STOCKS_EMERGING_MARKET
  else if symbol = "VCIT" then some .BONDS_CORP
  else if symbol = "VTWO" then some .STOCKS_USA_SMALL_CAP
  else if symbol = "VXUS" then some .STOCKS_INTERNATIONAL
  else if symbol = "VOO" then some .STOCKS_USA_SP500
  else if symbol = "VWOB" then some .BONDS_EMERGING_MARKET
  else none

/-- `Asset.__init__`: upper-case the symbol, round the price to 2 decimals,
store the quantity, derive the classification. -/
def mkAsset (symbol : String) (market_price : ℚ) (quantity : ℤ)
    (description : String := "") : Asset :=
  let sym := pyToUpper symbol
  { symbol := sym
    market_price := pyRound market_price 2
    quantity := quantity
    description := description
    classification := get_classification_of sym }

/-- `Asset.get_value`. -/
def Asset.get_value (a : Asset) : ℚ := a.quantity * a.market_price

/-! ### `PortFolio` -/

/-- A `PortFolio` object: the asset list and the cached `total_value`. -/
structure PortFolio where
  assets : List Asset
  total_value : ℚ
deriving DecidableEq, Repr

/-- The sum computed by `PortFolio.update_total_value`. -/
def sum_values (assets : List Asset) : ℚ := (assets.map Asset.get_value).sum

/-- `PortFolio.__init__`: store the list and immediately compute the total. -/
def mkPortFolio (assets : List Asset) : PortFolio :=
  { assets := assets, total_value := sum_values assets }

/-- The numerator of `PortFolio.get_percent_classification`: the summed
value of the assets whose classification equals the argument. -/
def class_value (p : PortFolio) (c : Option AssetClassification) : ℚ :=
  sum_values (p.assets.filter (fun a => a.classification = c))

/-- `PortFolio.get_percent_classification`; dividing by a zero
`total_value` raises `ZeroDivisionError` in Python. -/
def PortFolio.get_percent_classification (p : PortFolio)
    (c : Option AssetClassification) : Except String ℚ :=
  if p.total_value = 0 then .error "ZeroDivisionError"
  else .ok (class_value p c / p.total_value)

/-- `PortFolio.get_difference_from_target`: per-asset accumulation of the
absolute deviation of the asset's class percentage from its target,
rounded to 3 decimals at the end. -/
def PortFolio.get_difference_from_target (p : PortFolio) : Except String ℚ := do
  let difference ← p.assets.foldlM (fun acc a => do
    let percent_classification ← p.get_percent_classification a.classification
    let percent_target ← get_percentage_target a.classification
    pure (acc + |percent_classification - percent_target|)) (0 : ℚ)
  pure (pyRound difference 3)

/-- The quantity mutation performed by `PortFolio.buy_symbol` on the asset
list: bump the quantity of the first asset whose symbol matches. -/
def buy_first : List Asset → String → ℤ → List Asset
  | [], _, _ => []
  | a :: rest, symbol, shares =>
    if a.symbol = symbol then { a with quantity := a.quantity + shares } :: rest
    else a :: buy_first rest symbol shares

/-- `PortFolio.get_asset`: first asset with the (exact) symbol, else `None`. -/
def PortFolio.get_asset (p : PortFolio) (symbol : String) : Option Asset :=
  p.assets.find? (fun a => a.symbol = symbol)

/-- `PortFolio.buy_symbol`: locate by symbol (an `Asset` object is always
truthy, so the walrus test is exactly `get_asset ≠ None`), mutate the
quantity, recompute the total; raise `RuntimeError` on no match. -/
def PortFolio.buy_symbol (p : PortFolio) (symbol : String) (shares : ℤ) :
    Except String PortFolio :=
  match p.get_asset symbol with
  | some _ => .ok (mkPortFolio (buy_first p.assets symbol shares))
  | none => .error ("No owned shares: " ++ symbol)

/-! ### The candidate dictionary of `rebalance_portfolio`

Python dicts preserve insertion order; updating an existing key keeps its
position.  Modelled as an association list. -/

def dictGet {α : Type} (d : List (String × α)) (k : String) : Option α :=
  (d.find? (fun e => e.1 = k)).map Prod.snd

def dictSet {α : Type} : List (String × α) → String → α → List (String × α)
  | [], k, v => [(k, v)]
  | e :: rest, k, v => if e.1 = k then (k, v) :: rest else e :: dictSet rest k v

def dictKeys {α : Type} (d : List (String × α)) : List String := d.map Prod.fst

/-- Python `min()` over the dict's keys: keep the current minimum, replace
it whenever a later key compares `<` to it; error (`ValueError`) on an
empty sequence is handled at the call site. -/
def minKey : List String → Option String
  | [] => none
  | k :: ks => some (ks.foldl (fun m x => if pyStrLt x m then x else m) k)

/-! ### `rebalance_portfolio` -/

/-- The body of the inner `for symbol in symbol_list` loop: build a fresh
hypothetical portfolio from a deep copy of the working assets, buy one
share, compute the stringified deviation key; if the key is already
present (a non-empty `dict.get` result is truthy) buy a second share;
record the portfolio under the key. -/
def evaluate_symbol (working : PortFolio) (d : List (String × PortFolio))
    (symbol : String) : Except String (List (String × PortFolio)) := do
  let new_portfolio := mkPortFolio working.assets
  let new_portfolio ← new_portfolio.buy_symbol symbol 1
  let diff ← new_portfolio.get_difference_from_target
  let diff_key := floatStr3 diff
  if (dictGet d diff_key).isSome then do
    let new_portfolio2 ← new_portfolio.buy_symbol symbol 1
    pure (dictSet d diff_key new_portfolio2)
  else pure (dictSet d diff_key new_portfolio)

/-- One pass of the inner loop over the whole symbol list, starting from
the empty dict (`diff_asset_dict = {}`). -/
def build_candidates (working : PortFolio) (symbol_list : List String) :
    Except String (List (String × PortFolio)) :=
  symbol_list.foldlM (fun d s => evaluate_symbol working d s) []

/-- One iteration of the outer `while` loop up to the selection of the new
working portfolio: `min_diff = min(diff_asset_dict.keys())` followed by
`diff_asset_dict.get(min_diff)`. -/
def rebalance_step (working : PortFolio) (symbol_list : List String) :
    Except String PortFolio := do
  let d ← build_candidates working symbol_list
  match minKey (dictKeys d) with
  | none => .error "min() arg is an empty sequence"
  | some min_diff =>
    match dictGet d min_diff with
    | some np => pure np
    | none => .error "KeyError"

/-- The `while cash > 0` loop with explicit fuel.  Each iteration advances
`previous_portfolio ← working_portfolio`, `working_portfolio ← selected
candidate`, and debits `round(new_total - old_total, 2)` from the cash;
when the condition fails the `previous_portfolio` is returned ("do not
overspend").  `none` models a propagating exception or exhausted fuel. -/
def rebalance_loop : ℕ → ℚ → PortFolio → PortFolio → List String → Option PortFolio
  | 0, _, _, _, _ => none
  | fuel + 1, cash, working, previous, symbol_list =>
    if 0 < cash then
      match rebalance_step working symbol_list with
      | .error _ => none
      | .ok next =>
        let cost_to_buy := pyRound (next.total_value - working.total_value) 2
        rebalance_loop fuel (cash - cost_to_buy) next working symbol_list
    else some previous

/-- `rebalance_portfolio`, with the cash budget as a parameter (the source
fixes it to the global `CASH_TO_INVEST`).  The initial deep copy is a
value copy here; the working and previous portfolio both start as that
copy, and the symbol list is read from the argument portfolio. -/
def rebalance_portfolio (fuel : ℕ) (portfolio : PortFolio) (cash_to_invest : ℚ) :
    Option PortFolio :=
  rebalance_loop fuel cash_to_invest portfolio portfolio
    (portfolio.assets.map (fun a => a.symbol))

/-! ### Helper instances and lemmas -/

deriving instance DecidableEq for Except

/-! #### The Python string order -/

theorem pyStrLtList_irrefl (l : List Char) : pyStrLtList l l = false := by
  induction l with
  | nil => rfl
  | cons a as ih => simp [pyStrLtList, ih]

theorem pyStrLtList_trans (x : List Char) :
    ∀ y z, pyStrLtList x y = true → pyStrLtList y z = true → pyStrLtList x z = true := by
  induction x with
  | nil =>
    intro y z h1 h2
    cases y with
    | nil => simp [pyStrLtList] at h1
    | cons b bs =>
      cases z with
      | nil => simp [pyStrLtList] at h2
      | cons c cs => simp [pyStrLtList]
  | cons a as ih =>
    intro y z h1 h2
    cases y with
    | nil => simp [pyStrLtList] at h1
    | cons b bs =>
      cases z with
      | nil => simp [pyStrLtList] at h2
      | cons c cs =>
        simp only [pyStrLtList] at h1 h2 ⊢
        by_cases hab : a < b
        · by_cases hbc : b < c
          · simp [lt_trans hab hbc]
          · by_cases hcb : c < b
            · simp [hbc, hcb] at h2
            · have hbceq : b = c := le_antisymm (not_lt.mp hcb) (not_lt.mp hbc)
              subst hbceq
              simp [hab]
        · by_cases hba : b < a
          · simp [hab, hba] at h1
          · have habeq : a = b := le_antisymm (not_lt.mp hba) (not_lt.mp hab)
            subst habeq
            by_cases hac : a < c
            · simp [hac]
            · by_cases hca : c < a
              · simp [hac, hca] at h2
              · have haceq : a = c := le_antisymm (not_lt.mp hca) (not_lt.mp hac)
                subst haceq
                simp [lt_irrefl] at h1 h2 ⊢
                exact ih _ _ h1 h2

theorem pyStrLtList_antisymm (x : List Char) :
    ∀ y, pyStrLtList x y = false → pyStrLtList y x = false → x = y := by
  induction x with
  | nil =>
    intro y h1 _
    cases y with
    | nil => rfl
    | cons b bs => simp [pyStrLtList] at h1
  | cons a as ih =>
    intro y h1 h2
    cases y with
    | nil => simp [pyStrLtList] at h2
    | cons b bs =>
      simp only [pyStrLtList] at h1 h2
      by_cases hab : a < b
      · simp [hab] at h1
      · by_cases hba : b < a
        · simp [hab, hba] at h2
        · have habeq : a = b := le_antisymm (not_lt.mp hba) (not_lt.mp hab)
          subst habeq
          simp [lt_irrefl] at h1 h2
          rw [ih _ h1 h2]

theorem pyStrLt_irrefl (s : String) : pyStrLt s s = false :=
  pyStrLtList_irrefl s.data

theorem pyStrLt_trans {a b c : String} (h1 : pyStrLt a b = true)
    (h2 : pyStrLt b c = true) : pyStrLt a c = true :=
  pyStrLtList_trans a.data b.data c.data h1 h2

theorem pyStrLt_antisymm {a b : String} (h1 : pyStrLt a b = false)
    (h2 : pyStrLt b a = false) : a = b := by
  have h := pyStrLtList_antisymm a.data b.data h1 h2
  cases a; cases b; exact congrArg String.mk h

/-! #### `min()` over keys -/

/-- The fold Python's `min` performs over a nonempty sequence. -/
def minFold (acc : String) (ks : List String) : String :=
  ks.foldl (fun m x => if pyStrLt x m then x else m) acc

theorem minKey_cons (k : String) (ks : List String) :
    minKey (k :: ks) = some (minFold k ks) := rfl

theorem minFold_cons (acc k : String) (ks : List String) :
    minFold acc (k :: ks) = minFold (if pyStrLt k acc then k else acc) ks := rfl

theorem minFold_mem (ks : List String) : ∀ acc, minFold acc ks ∈ acc :: ks := by
  induction ks with
  | nil => intro acc; simp [minFold]
  | cons k ks ih =>
    intro acc
    rw [minFold_cons]
    by_cases h : pyStrLt k acc
    · rw [if_pos h]
      rcases List.mem_cons.mp (ih k) with h' | h'
      · rw [h']; simp
      · simp [List.mem_cons, h']
    · rw [if_neg h]
      rcases List.mem_cons.mp (ih acc) with h' | h'
      · rw [h']; simp
      · simp [List.mem_cons, h']

theorem minFold_not_lt (ks : List String) :
    ∀ acc x, x ∈ acc :: ks → pyStrLt x (minFold acc ks) = false := by
  induction ks with
  | nil =>
    intro acc x hx
    have hxa : x = acc := by simpa using hx
    rw [hxa]
    simpa [minFold] using pyStrLt_irrefl acc
  | cons k ks ih =>
    intro acc x hx
    rw [minFold_cons]
    by_cases h : pyStrLt k acc
    · rw [if_pos h]
      rcases List.mem_cons.mp hx with h1 | h2
      · cases hlt : pyStrLt x (minFold k ks) with
        | false => rfl
        | true =>
          exfalso
          rw [h1] at hlt
          have hk : pyStrLt k (minFold k ks) = true := pyStrLt_trans h hlt
          have hk2 := ih k k (by simp)
          rw [hk2] at hk
          exact Bool.noConfusion hk
      · exact ih k x h2
    · rw [if_neg h]
      rcases List.mem_cons.mp hx with h1 | h2
      · rw [h1]; exact ih acc acc (by simp)
      · rcases List.mem_cons.mp h2 with h3 | h4
        · cases hlt : pyStrLt x (minFold acc ks) with
          | false => rfl
          | true =>
            exfalso
            rw [h3] at hlt
            have hka : pyStrLt k acc = false := by simpa using h
            by_cases hak : pyStrLt acc k = true
            · have h5 : pyStrLt acc (minFold acc ks) = true := pyStrLt_trans hak hlt
              have h6 := ih acc acc (by simp)
              rw [h6] at h5
              exact Bool.noConfusion h5
            · have hak2 : pyStrLt acc k = false := by simpa using hak
              have hkacc : k = acc := pyStrLt_antisymm hka hak2
              rw [hkacc] at hlt
              have h6 := ih acc acc (by simp)
              rw [h6] at hlt
              exact Bool.noConfusion hlt
        · exact ih acc x (by simp [h4])

theorem minKey_spec {l : List String} {m : String} (h : minKey l = some m) :
    m ∈ l ∧ ∀ x ∈ l, pyStrLt x m = false := by
  cases l with
  | nil => simp [minKey] at h
  | cons k ks =>
    rw [minKey_cons] at h
    have hm : m = minFold k ks := by injection h with h'; exact h'.symm
    subst hm
    exact ⟨minFold_mem ks k, minFold_not_lt ks k⟩

/-! #### Dictionary lemmas -/

theorem dictGet_cons {α : Type} (e : String × α) (rest : List (String × α)) (k : String) :
    dictGet (e :: rest) k = if e.1 = k then some e.2 else dictGet rest k := by
  by_cases h : e.1 = k
  · simp [dictGet, List.find?_cons_of_pos, h]
  · simp [dictGet, List.find?_cons_of_neg, h]

theorem dictGet_dictSet_self {α : Type} (d : List (String × α)) (k : String) (v : α) :
    dictGet (dictSet d k v) k = some v := by
  induction d with
  | nil => simp [dictGet, dictSet]
  | cons e rest ih =>
    by_cases h : e.1 = k
    · simp [dictSet, h, dictGet_cons]
    · simp [dictSet, h, dictGet_cons, ih]

theorem mem_dictSet {α : Type} (d : List (String × α)) (k : String) (v : α) :
    ∀ e ∈ dictSet d k v, e ∈ d ∨ e = (k, v) := by
  induction d with
  | nil => intro e he; simp [dictSet] at he; simp [he]
  | cons f rest ih =>
    intro e he
    by_cases h : f.1 = k
    · simp only [dictSet, if_pos h] at he
      rcases List.mem_cons.mp he with h1 | h2
      · exact Or.inr h1
      · exact Or.inl (List.mem_cons_of_mem f h2)
    · simp only [dictSet, if_neg h] at he
      rcases List.mem_cons.mp he with h1 | h2
      · exact Or.inl (h1 ▸ List.mem_cons_self f rest)
      · rcases ih e h2 with h3 | h3
        · exact Or.inl (List.mem_cons_of_mem f h3)
        · exact Or.inr h3

theorem dictGet_mem {α : Type} {d : List (String × α)} {k : String} {v : α}
    (h : dictGet d k = some v) : (k, v) ∈ d := by
  induction d with
  | nil => simp [dictGet] at h
  | cons e rest ih =>
    rw [dictGet_cons] at h
    by_cases he : e.1 = k
    · rw [if_pos he] at h
      injection h with h2
      have hekv : e = (k, v) := by
        cases e
        simp_all
      exact hekv ▸ List.mem_cons_self e rest
    · rw [if_neg he] at h
      exact List.mem_cons_of_mem e (ih h)

theorem mem_keys_isSome {α : Type} (d : List (String × α)) (k : String)
    (h : k ∈ dictKeys d) : (dictGet d k).isSome = true := by
  induction d with
  | nil => simp [dictKeys] at h
  | cons e rest ih =>
    rw [dictGet_cons]
    by_cases he : e.1 = k
    · simp [he]
    · rw [if_neg he]
      have h2 : k ∈ dictKeys rest := by
        simp only [dictKeys, List.map_cons, List.mem_cons] at h
        rcases h with h1 | h2
        · exact absurd h1.symm he
        · exact h2
      exact ih h2

theorem dictSet_ne_nil {α : Type} (d : List (String × α)) (k : String) (v : α) :
    dictSet d k v ≠ [] := by
  cases d with
  | nil => simp [dictSet]
  | cons e rest =>
    by_cases h : e.1 = k <;> simp [dictSet, h]

/-! #### `buy_first` lemmas -/

theorem sum_values_cons (a : Asset) (l : List Asset) :
    sum_values (a :: l) = a.get_value + sum_values l := by
  simp [sum_values]

theorem buy_first_map_symbol (l : List Asset) (s : String) (n : ℤ) :
    (buy_first l s n).map Asset.symbol = l.map Asset.symbol := by
  induction l with
  | nil => rfl
  | cons a rest ih => by_cases h : a.symbol = s <;> simp [buy_first, h, ih]

theorem buy_first_map_price (l : List Asset) (s : String) (n : ℤ) :
    (buy_first l s n).map Asset.market_price = l.map Asset.market_price := by
  induction l with
  | nil => rfl
  | cons a rest ih => by_cases h : a.symbol = s <;> simp [buy_first, h, ih]

theorem buy_first_map_classification (l : List Asset) (s : String) (n : ℤ) :
    (buy_first l s n).map Asset.classification = l.map Asset.classification := by
  induction l with
  | nil => rfl
  | cons a rest ih => by_cases h : a.symbol = s <;> simp [buy_first, h, ih]

theorem buy_first_twice (l : List Asset) (s : String) (m n : ℤ) :
    buy_first (buy_first l s m) s n = buy_first l s (m + n) := by
  induction l with
  | nil => rfl
  | cons a rest ih =>
    by_cases h : a.symbol = s
    · simp [buy_first, h, Int.add_assoc]
    · simp [buy_first, h, ih]

theorem sum_values_buy_first (l : List Asset) (s : String) (n : ℤ) (a : Asset)
    (h : l.find? (fun x => x.symbol = s) = some a) :
    sum_values (buy_first l s n) = sum_values l + n * a.market_price := by
  induction l with
  | nil => simp at h
  | cons b rest ih =>
    by_cases hb : b.symbol = s
    · rw [List.find?_cons_of_pos _ (by simpa using hb)] at h
      have hab : b = a := by injection h
      subst hab
      simp only [buy_first, if_pos hb, sum_values_cons, Asset.get_value]
      push_cast
      ring
    · rw [List.find?_cons_of_neg _ (by simpa using hb)] at h
      simp only [buy_first, if_neg hb, sum_values_cons, ih h]
      ring

theorem find?_symbol_isSome_iff (l : List Asset) (s : String) :
    (l.find? (fun a => a.symbol = s)).isSome = true ↔ s ∈ l.map Asset.symbol := by
  rw [List.find?_isSome]
  constructor
  · rintro ⟨x, hx, hxs⟩
    simp at hxs
    exact hxs ▸ List.mem_map_of_mem Asset.symbol hx
  · intro h
    rcases List.mem_map.mp h with ⟨x, hx, hxs⟩
    exact ⟨x, hx, by simp [hxs]⟩

/-! #### Cent-valued rationals and exact rounding -/

/-- A price (or a value built from prices with integer quantities) that is an
exact multiple of `1/100`, as every constructor-rounded price is. -/
def isCents (q : ℚ) : Prop := ∃ k : ℤ, q = (k : ℚ) / 100

theorem isCents_add {a b : ℚ} (ha : isCents a) (hb : isCents b) : isCents (a + b) := by
  obtain ⟨k, hk⟩ := ha
  obtain ⟨m, hm⟩ := hb
  exact ⟨k + m, by rw [hk, hm]; push_cast; ring⟩

theorem isCents_sub {a b : ℚ} (ha : isCents a) (hb : isCents b) : isCents (a - b) := by
  obtain ⟨k, hk⟩ := ha
  obtain ⟨m, hm⟩ := hb
  exact ⟨k - m, by rw [hk, hm]; push_cast; ring⟩

theorem isCents_int_mul (n : ℤ) {a : ℚ} (ha : isCents a) : isCents ((n : ℚ) * a) := by
  obtain ⟨k, hk⟩ := ha
  exact ⟨n * k, by rw [hk]; push_cast; ring⟩

theorem isCents_zero : isCents 0 := ⟨0, by norm_num⟩

theorem isCents_sum_values (l : List Asset)
    (h : ∀ a ∈ l, isCents a.market_price) : isCents (sum_values l) := by
  induction l with
  | nil => simpa [sum_values] using isCents_zero
  | cons a rest ih =>
    rw [sum_values_cons]
    exact isCents_add (isCents_int_mul a.quantity (h a (by simp)))
      (ih (fun x hx => h x (List.mem_cons_of_mem a hx)))

theorem pyRoundHalfEven_intCast (k : ℤ) : pyRoundHalfEven (k : ℚ) = k := by
  simp [pyRoundHalfEven, Int.floor_intCast]

theorem pyRound_cents {q : ℚ} (h : isCents q) : pyRound q 2 = q := by
  obtain ⟨k, hk⟩ := h
  subst hk
  have h100 : ((k : ℚ) / 100) * 10 ^ 2 = (k : ℚ) := by
    ring
  rw [pyRound, h100, pyRoundHalfEven_intCast]
  ring

theorem pyRound_nonneg {q : ℚ} (n : ℕ) (h : 0 ≤ q) : 0 ≤ pyRound q n := by
  have hf : (0 : ℤ) ≤ ⌊q * 10 ^ n⌋ := Int.floor_nonneg.mpr (by positivity)
  rw [pyRound]
  have hr : (0 : ℤ) ≤ pyRoundHalfEven (q * 10 ^ n) := by
    rw [pyRoundHalfEven]
    split_ifs <;> omega
  positivity

theorem pyRound_zero (n : ℕ) : pyRound 0 n = 0 := by
  have h0 : (0 : ℚ) * 10 ^ n = ((0 : ℤ) : ℚ) := by norm_num
  rw [pyRound, h0, pyRoundHalfEven_intCast]
  norm_num

/-! #### Generic `foldlM` lemmas over `Except` -/

theorem foldlM_except_inv {σ α : Type} (f : σ → α → Except String σ) (P : σ → Prop)
    (hstep : ∀ s x s', P s → f s x = .ok s' → P s') :
    ∀ (l : List α) (s0 s1 : σ), P s0 → l.foldlM f s0 = .ok s1 → P s1 := by
  intro l
  induction l with
  | nil =>
    intro s0 s1 h0 hr
    rw [List.foldlM_nil] at hr
    injection hr with h
    exact h ▸ h0
  | cons x l ih =>
    intro s0 s1 h0 hr
    rw [List.foldlM_cons] at hr
    cases hx : f s0 x with
    | error e =>
      rw [hx] at hr
      simp only [bind, Except.bind] at hr
      exact Except.noConfusion hr
    | ok s' =>
      rw [hx] at hr
      simp only [bind, Except.bind] at hr
      exact ih s' s1 (hstep s0 x s' h0 hx) hr

theorem foldlM_except_ok {σ α : Type} (f : σ → α → Except String σ) (P : σ → Prop) :
    ∀ (l : List α), (∀ s x, P s → x ∈ l → ∃ s', f s x = .ok s' ∧ P s') →
      ∀ s0, P s0 → ∃ s1, l.foldlM f s0 = .ok s1 ∧ P s1 := by
  intro l
  induction l with
  | nil => intro _ s0 h0; exact ⟨s0, List.foldlM_nil f s0, h0⟩
  | cons x l ih =>
    intro hstep s0 h0
    obtain ⟨s', hx, hP⟩ := hstep s0 x h0 (by simp)
    obtain ⟨s1, hr, hP1⟩ :=
      ih (fun s y hs hy => hstep s y hs (List.mem_cons_of_mem x hy)) s' hP
    refine ⟨s1, ?_, hP1⟩
    rw [List.foldlM_cons, hx]
    simpa only [bind, Except.bind] using hr

theorem foldlM_except_err {σ α : Type} (f : σ → α → Except String σ) {l : List α}
    {a : α} (ha : a ∈ l) (herr : ∀ acc, ∃ e, f acc a = .error e) :
    ∀ acc, ∃ e, l.foldlM f acc = .error e := by
  induction l with
  | nil => simp at ha
  | cons b l ih =>
    intro acc
    rcases List.mem_cons.mp ha with h1 | h2
    · obtain ⟨e, he⟩ := herr acc
      rw [h1] at he
      exact ⟨e, by rw [List.foldlM_cons, he]; rfl⟩
    · cases hb : f acc b with
      | error e => exact ⟨e, by rw [List.foldlM_cons, hb]; rfl⟩
      | ok acc' =>
        obtain ⟨e, he⟩ := ih h2 acc'
        exact ⟨e, by rw [List.foldlM_cons, hb]; simpa only [bind, Except.bind] using he⟩

theorem foldlM_except_last {σ α : Type} (f : σ → α → Except String σ) (Q : σ → Prop)
    (hQ : ∀ s x s', f s x = .ok s' → Q s') :
    ∀ (l : List α) (s0 s1 : σ), l ≠ [] → l.foldlM f s0 = .ok s1 → Q s1 := by
  intro l
  induction l with
  | nil => intro s0 s1 h; exact absurd rfl h
  | cons x l ih =>
    intro s0 s1 _ hr
    rw [List.foldlM_cons] at hr
    cases hx : f s0 x with
    | error e =>
      rw [hx] at hr
      simp only [bind, Except.bind] at hr
      exact Except.noConfusion hr
    | ok s' =>
      rw [hx] at hr
      simp only [bind, Except.bind] at hr
      cases l with
      | nil =>
        rw [List.foldlM_nil] at hr
        injection hr with h
        exact h ▸ hQ s0 x s' hx
      | cons y l2 => exact ih s' s1 (by simp) hr

/-! #### Reduction lemmas for `Except` -/

theorem except_ok_bind {α β : Type} (a : α) (f : α → Except String β) :
    (Except.ok a >>= f : Except String β) = f a := rfl

theorem except_error_bind {α β : Type} (e : String) (f : α → Except String β) :
    (Except.error e >>= f : Except String β) = Except.error e := rfl

theorem except_pure_eq {α : Type} (a : α) : (pure a : Except String α) = Except.ok a := rfl

/-! #### The deviation score -/

/-- The pure target table behind `get_percentage_target` (used to state
what the fallible function returns on a resolved classification). -/
def target_of : AssetClassification → ℚ
  | .STOCKS_USA_SMALL_CAP => 10/100
  | .STOCKS_USA_SP500 => 40/100
  | .STOCKS_EMERGING_MARKET => 5/100
  | .STOCKS_INTERNATIONAL => 25/100
  | .BONDS_CORP => 10/100
  | .BONDS_EMERGING_MARKET => 5/100
  | .REAL_ESTATE => 5/100

theorem get_percentage_target_some (c : AssetClassification) :
    get_percentage_target (some c) = .ok (target_of c) := by
  cases c <;> rfl

/-- The pure target value of an optional classification (0 as a dummy for
`none`, a case the success lemmas exclude). -/
def target_getD : Option AssetClassification → ℚ
  | some c => target_of c
  | none => 0

/-- The per-asset contribution accumulated by
`PortFolio.get_difference_from_target` when no exception occurs. -/
def diff_term (p : PortFolio) (a : Asset) : ℚ :=
  |class_value p a.classification / p.total_value - target_getD a.classification|

@[simp] theorem mkPortFolio_assets (l : List Asset) : (mkPortFolio l).assets = l := rfl

@[simp] theorem mkPortFolio_total (l : List Asset) :
    (mkPortFolio l).total_value = sum_values l := rfl

theorem diff_fold_ok (p : PortFolio) (htot : p.total_value ≠ 0) :
    ∀ (l : List Asset), (∀ a ∈ l, a.classification.isSome = true) → ∀ acc : ℚ,
      (l.foldlM (fun acc a => do
        let percent_classification ← p.get_percent_classification a.classification
        let percent_target ← get_percentage_target a.classification
        pure (acc + |percent_classification - percent_target|)) acc : Except String ℚ)
      = .ok (acc + (l.map (diff_term p)).sum) := by
  intro l
  induction l with
  | nil =>
    intro _ acc
    rw [List.foldlM_nil]
    simp [except_pure_eq]
  | cons a l ih =>
    intro hres acc
    obtain ⟨c, hc⟩ := Option.isSome_iff_exists.mp (hres a (by simp))
    rw [List.foldlM_cons]
    have hstep : ((do
        let percent_classification ← p.get_percent_classification a.classification
        let percent_target ← get_percentage_target a.classification
        pure (acc + |percent_classification - percent_target|)) : Except String ℚ)
        = .ok (acc + diff_term p a) := by
      simp only [diff_term]
      rw [hc]
      simp only [PortFolio.get_percent_classification, if_neg htot,
        get_percentage_target_some, target_getD, except_ok_bind, except_pure_eq]
    rw [hstep]
    simp only [except_ok_bind]
    rw [ih (fun x hx => hres x (List.mem_cons_of_mem a hx)) (acc + diff_term p a)]
    rw [List.map_cons, List.sum_cons, add_assoc]

theorem get_difference_ok (p : PortFolio) (htot : p.total_value ≠ 0)
    (hres : ∀ a ∈ p.assets, a.classification.isSome = true) :
    p.get_difference_from_target = .ok (pyRound ((p.assets.map (diff_term p)).sum) 3) := by
  unfold PortFolio.get_difference_from_target
  rw [diff_fold_ok p htot p.assets hres 0]
  simp only [except_ok_bind, except_pure_eq, zero_add]

theorem get_difference_err (p : PortFolio) (a : Asset) (ha : a ∈ p.assets)
    (hnone : a.classification = none) :
    ∃ e, p.get_difference_from_target = .error e := by
  have herr : ∀ acc : ℚ, ∃ e, ((do
      let percent_classification ← p.get_percent_classification a.classification
      let percent_target ← get_percentage_target a.classification
      pure (acc + |percent_classification - percent_target|)) : Except String ℚ)
      = .error e := by
    intro acc
    by_cases htot : p.total_value = 0
    · refine ⟨"ZeroDivisionError", ?_⟩
      simp only [PortFolio.get_percent_classification, if_pos htot, except_error_bind]
    · refine ⟨"case does not match any percentage target", ?_⟩
      simp only [PortFolio.get_percent_classification, if_neg htot, hnone,
        get_percentage_target, except_ok_bind, except_error_bind]
  obtain ⟨e, he⟩ := foldlM_except_err
    (f := fun (acc : ℚ) (x : Asset) => do
      let percent_classification ← p.get_percent_classification x.classification
      let percent_target ← get_percentage_target x.classification
      pure (acc + |percent_classification - percent_target|)) ha herr 0
  refine ⟨e, ?_⟩
  unfold PortFolio.get_difference_from_target
  rw [he]
  rfl

/-! #### `buy_symbol` characterization -/

theorem buy_symbol_of_find {p : PortFolio} {s : String} {a : Asset} (n : ℤ)
    (hf : p.assets.find? (fun x => x.symbol = s) = some a) :
    p.buy_symbol s n = .ok (mkPortFolio (buy_first p.assets s n)) := by
  unfold PortFolio.buy_symbol PortFolio.get_asset
  rw [hf]

theorem buy_symbol_of_none {p : PortFolio} {s : String} (n : ℤ)
    (hf : p.assets.find? (fun x => x.symbol = s) = none) :
    p.buy_symbol s n = .error ("No owned shares: " ++ s) := by
  unfold PortFolio.buy_symbol PortFolio.get_asset
  rw [hf]

theorem buy_symbol_ok_elim {p : PortFolio} {s : String} {n : ℤ} {p' : PortFolio}
    (h : p.buy_symbol s n = .ok p') :
    ∃ a, p.assets.find? (fun x => x.symbol = s) = some a ∧
      p' = mkPortFolio (buy_first p.assets s n) := by
  unfold PortFolio.buy_symbol PortFolio.get_asset at h
  cases hf : p.assets.find? (fun x => x.symbol = s) with
  | none => rw [hf] at h; exact Except.noConfusion h
  | some a =>
    rw [hf] at h
    injection h with h2
    exact ⟨a, rfl, h2.symm⟩

/-! #### Shape of the recorded candidates -/

theorem evaluate_symbol_eq (w : PortFolio) (d : List (String × PortFolio)) (s : String) :
    evaluate_symbol w d s =
      (mkPortFolio w.assets).buy_symbol s 1 >>= fun np =>
        np.get_difference_from_target >>= fun diff =>
          if (dictGet d (floatStr3 diff)).isSome then
            np.buy_symbol s 1 >>= fun np2 => pure (dictSet d (floatStr3 diff) np2)
          else pure (dictSet d (floatStr3 diff) np) := rfl

/-- Every portfolio recorded in `diff_asset_dict` during one outer-loop
iteration is the working portfolio with one or two shares of a held
symbol bought into it, with a freshly computed total. -/
def cand_shape (w : PortFolio) (e : String × PortFolio) : Prop :=
  ∃ s k a, (k = (1 : ℤ) ∨ k = 2) ∧
    w.assets.find? (fun x => x.symbol = s) = some a ∧
    e.2.assets = buy_first w.assets s k ∧
    e.2.total_value = sum_values e.2.assets

theorem evaluate_symbol_shape {w : PortFolio} {d d' : List (String × PortFolio)}
    {s : String} (hd : ∀ e ∈ d, cand_shape w e)
    (h : evaluate_symbol w d s = .ok d') : ∀ e ∈ d', cand_shape w e := by
  rw [evaluate_symbol_eq] at h
  cases hb : (mkPortFolio w.assets).buy_symbol s 1 with
  | error e =>
    rw [hb] at h
    simp only [except_error_bind] at h
    exact Except.noConfusion h
  | ok np =>
    rw [hb] at h
    simp only [except_ok_bind] at h
    obtain ⟨a, hf, hnp⟩ := buy_symbol_ok_elim hb
    simp only [mkPortFolio_assets] at hf hnp
    cases hdiff : np.get_difference_from_target with
    | error e =>
      rw [hdiff] at h
      simp only [except_error_bind] at h
      exact Except.noConfusion h
    | ok v =>
      rw [hdiff] at h
      simp only [except_ok_bind] at h
      by_cases hget : (dictGet d (floatStr3 v)).isSome = true
      · rw [if_pos hget] at h
        cases hb2 : np.buy_symbol s 1 with
        | error e =>
          rw [hb2] at h
          simp only [except_error_bind] at h
          exact Except.noConfusion h
        | ok np2 =>
          rw [hb2] at h
          simp only [except_ok_bind, except_pure_eq] at h
          injection h with h2
          subst h2
          obtain ⟨a2, hf2, hnp2⟩ := buy_symbol_ok_elim hb2
          intro e he
          rcases mem_dictSet d (floatStr3 v) np2 e he with h1 | h1
          · exact hd e h1
          · subst h1
            refine ⟨s, 2, a, Or.inr rfl, hf, ?_, ?_⟩
            · rw [hnp2, mkPortFolio_assets, hnp, mkPortFolio_assets, buy_first_twice]
              norm_num
            · rw [hnp2]
              rfl
      · rw [if_neg hget] at h
        simp only [except_pure_eq] at h
        injection h with h2
        subst h2
        intro e he
        rcases mem_dictSet d (floatStr3 v) np e he with h1 | h1
        · exact hd e h1
        · subst h1
          exact ⟨s, 1, a, Or.inl rfl, hf, by rw [hnp]; rfl, by rw [hnp]; rfl⟩

theorem build_candidates_shape {w : PortFolio} {syms : List String}
    {d : List (String × PortFolio)} (h : build_candidates w syms = .ok d) :
    ∀ e ∈ d, cand_shape w e := by
  unfold build_candidates at h
  exact foldlM_except_inv _ (fun d => ∀ e ∈ d, cand_shape w e)
    (fun d0 s d1 hP hs => evaluate_symbol_shape hP hs) syms [] d (by simp) h

theorem rebalance_step_elim {w : PortFolio} {syms : List String} {next : PortFolio}
    (h : rebalance_step w syms = .ok next) :
    ∃ d mk, build_candidates w syms = .ok d ∧ minKey (dictKeys d) = some mk ∧
      dictGet d mk = some next := by
  unfold rebalance_step at h
  cases hd : build_candidates w syms with
  | error e =>
    rw [hd] at h
    simp only [except_error_bind] at h
    exact Except.noConfusion h
  | ok d =>
    rw [hd] at h
    simp only [except_ok_bind] at h
    cases hm : minKey (dictKeys d) with
    | none =>
      rw [hm] at h
      exact Except.noConfusion h
    | some mk =>
      rw [hm] at h
      have h1 : (match dictGet d mk with
          | some np => pure np
          | none => Except.error "KeyError" : Except String PortFolio) = Except.ok next := h
      cases hg : dictGet d mk with
      | none =>
        rw [hg] at h1
        exact Except.noConfusion h1
      | some np =>
        rw [hg] at h1
        have h2 : Except.ok np = Except.ok next := h1
        injection h2 with h3
        exact ⟨d, mk, rfl, hm, by rw [hg, h3]⟩

theorem rebalance_step_next {w : PortFolio} (syms : List String) {next : PortFolio}
    (h : rebalance_step w syms = .ok next) :
    ∃ s k a, (k = (1 : ℤ) ∨ k = 2) ∧
      w.assets.find? (fun x => x.symbol = s) = some a ∧
      next.assets = buy_first w.assets s k ∧
      next.total_value = sum_values w.assets + k * a.market_price := by
  obtain ⟨d, mk, hd, hm, hg⟩ := rebalance_step_elim h
  have hshape := build_candidates_shape hd (mk, next) (dictGet_mem hg)
  obtain ⟨s, k, a, hk, hf, hassets, htot⟩ := hshape
  refine ⟨s, k, a, hk, hf, hassets, ?_⟩
  rw [htot, hassets, sum_values_buy_first w.assets s k a hf]

/-! #### `isCents` is decidable -/

theorem isCents_iff (q : ℚ) : isCents q ↔ (q * 100 : ℚ).den = 1 := by
  constructor
  · rintro ⟨k, rfl⟩
    have h : (k : ℚ) / 100 * 100 = (k : ℚ) := by ring
    rw [h, Rat.den_intCast]
  · intro h
    refine ⟨(q * 100).num, ?_⟩
    have h2 := Rat.num_div_den (q * 100)
    rw [h] at h2
    push_cast at h2
    rw [div_one] at h2
    rw [h2]
    ring

instance : DecidablePred isCents := fun q => decidable_of_iff _ (isCents_iff q).symm

/-! #### The budget invariant of the outer loop -/

theorem rebalance_loop_le (symbols : List String) (B : ℚ) :
    ∀ (fuel : ℕ) (cash : ℚ) (working previous r : PortFolio),
      (∀ a ∈ working.assets, isCents a.market_price) →
      working.total_value = sum_values working.assets →
      working.total_value = B - cash →
      previous.total_value ≤ B →
      rebalance_loop fuel cash working previous symbols = some r →
      r.total_value ≤ B := by
  intro fuel
  induction fuel with
  | zero =>
    intro cash w prev r _ _ _ _ hr
    exact absurd hr (by simp [rebalance_loop])
  | succ fuel ih =>
    intro cash w prev r hc hwf hW hP hr
    rw [rebalance_loop] at hr
    by_cases hcash : 0 < cash
    · rw [if_pos hcash] at hr
      cases hstep : rebalance_step w symbols with
      | error e =>
        rw [hstep] at hr
        exact Option.noConfusion hr
      | ok next =>
        rw [hstep] at hr
        have hr2 : rebalance_loop fuel
            (cash - pyRound (next.total_value - w.total_value) 2) next w symbols
            = some r := hr
        obtain ⟨s, k, a, hk, hf, hassets, htot⟩ := rebalance_step_next symbols hstep
        have hamem : a ∈ w.assets := List.mem_of_find?_eq_some hf
        have hcnext : ∀ x ∈ next.assets, isCents x.market_price := by
          intro x hx
          rw [hassets] at hx
          have hmem : x.market_price ∈ (buy_first w.assets s k).map Asset.market_price :=
            List.mem_map_of_mem Asset.market_price hx
          rw [buy_first_map_price] at hmem
          rcases List.mem_map.mp hmem with ⟨y, hy, hyy⟩
          exact hyy ▸ hc y hy
        have hwfnext : next.total_value = sum_values next.assets := by
          rw [htot, hassets, sum_values_buy_first w.assets s k a hf]
        have hwcents : isCents w.total_value := hwf ▸ isCents_sum_values w.assets hc
        have hncents : isCents next.total_value := by
          rw [htot]
          exact isCents_add (isCents_sum_values w.assets hc)
            (isCents_int_mul k (hc a hamem))
        have hcost : pyRound (next.total_value - w.total_value) 2
            = next.total_value - w.total_value :=
          pyRound_cents (isCents_sub hncents hwcents)
        have hWnext : next.total_value
            = B - (cash - pyRound (next.total_value - w.total_value) 2) := by
          rw [hcost]
          linarith [hW]
        have hPnext : w.total_value ≤ B := by
          rw [hW]
          linarith
        exact ih (cash - pyRound (next.total_value - w.total_value) 2) next w r
          hcnext hwfnext hWnext hPnext hr2
    · rw [if_neg hcash] at hr
      injection hr with h2
      rw [← h2]
      exact hP

/-! #### Success of one loop iteration under well-formedness -/

theorem forall_mem_map_eq {α β : Type} (f : α → β) (P : β → Prop) {l l2 : List α}
    (hmap : l2.map f = l.map f) (h : ∀ a ∈ l, P (f a)) : ∀ a ∈ l2, P (f a) := by
  intro a ha
  have hmem : f a ∈ l2.map f := List.mem_map_of_mem f ha
  rw [hmap] at hmem
  rcases List.mem_map.mp hmem with ⟨b, hb, hfb⟩
  exact hfb ▸ h b hb

/-- The invariant the working portfolio maintains across the outer-loop
iterations relative to the starting portfolio `p`: same symbols, prices and
classifications (buying only changes quantities), a fresh total, and a total
never below the starting one. -/
def LoopInv (p w : PortFolio) : Prop :=
  w.assets.map Asset.symbol = p.assets.map Asset.symbol ∧
  w.assets.map Asset.market_price = p.assets.map Asset.market_price ∧
  w.assets.map Asset.classification = p.assets.map Asset.classification ∧
  w.total_value = sum_values w.assets ∧
  p.total_value ≤ w.total_value

theorem evaluate_symbol_ok {p w : PortFolio} {δ : ℚ} (hδ : 0 < δ)
    (hprice : ∀ a ∈ p.assets, δ ≤ a.market_price)
    (hres : ∀ a ∈ p.assets, a.classification.isSome = true)
    (htot : 0 < p.total_value)
    (hinv : LoopInv p w)
    (d : List (String × PortFolio)) {s : String}
    (hs : s ∈ p.assets.map Asset.symbol) :
    ∃ d', evaluate_symbol w d s = .ok d' := by
  obtain ⟨hsym, hpr, hcl, hwf, hge⟩ := hinv
  have hs2 : s ∈ w.assets.map Asset.symbol := by rw [hsym]; exact hs
  have hfind : (w.assets.find? (fun x => x.symbol = s)).isSome = true :=
    (find?_symbol_isSome_iff w.assets s).mpr hs2
  obtain ⟨a, hf⟩ := Option.isSome_iff_exists.mp hfind
  have hb : (mkPortFolio w.assets).buy_symbol s 1
      = .ok (mkPortFolio (buy_first w.assets s 1)) := buy_symbol_of_find 1 hf
  have hamem : a ∈ w.assets := List.mem_of_find?_eq_some hf
  have hpa : δ ≤ a.market_price :=
    forall_mem_map_eq Asset.market_price (fun q => δ ≤ q) hpr hprice a hamem
  have hnp_tot : (mkPortFolio (buy_first w.assets s 1)).total_value
      = sum_values w.assets + 1 * a.market_price := by
    rw [mkPortFolio_total, sum_values_buy_first w.assets s 1 a hf]
    norm_num
  have hsumpos : 0 < sum_values w.assets := lt_of_lt_of_le htot (hwf ▸ hge)
  have hnp_pos : 0 < (mkPortFolio (buy_first w.assets s 1)).total_value := by
    rw [hnp_tot]
    linarith
  have hnp_res : ∀ x ∈ (mkPortFolio (buy_first w.assets s 1)).assets,
      x.classification.isSome = true := by
    rw [mkPortFolio_assets]
    refine forall_mem_map_eq Asset.classification (fun c => c.isSome = true) ?_ hres
    rw [buy_first_map_classification, hcl]
  have hdiff := get_difference_ok (mkPortFolio (buy_first w.assets s 1))
    (ne_of_gt hnp_pos) hnp_res
  rw [evaluate_symbol_eq, hb]
  simp only [except_ok_bind]
  rw [hdiff]
  simp only [except_ok_bind]
  by_cases hget : (dictGet d (floatStr3 (pyRound
      (((mkPortFolio (buy_first w.assets s 1)).assets.map
        (diff_term (mkPortFolio (buy_first w.assets s 1)))).sum) 3))).isSome = true
  · rw [if_pos hget]
    have hfind2 : ((mkPortFolio (buy_first w.assets s 1)).assets.find?
        (fun x => x.symbol = s)).isSome = true := by
      rw [mkPortFolio_assets, find?_symbol_isSome_iff, buy_first_map_symbol]
      exact hs2
    obtain ⟨a2, hf2⟩ := Option.isSome_iff_exists.mp hfind2
    rw [buy_symbol_of_find 1 hf2]
    simp only [except_ok_bind, except_pure_eq]
    exact ⟨_, rfl⟩
  · rw [if_neg hget]
    exact ⟨_, rfl⟩

theorem evaluate_symbol_ne_nil {w : PortFolio} {d d' : List (String × PortFolio)}
    {s : String} (h : evaluate_symbol w d s = .ok d') : d' ≠ [] := by
  rw [evaluate_symbol_eq] at h
  cases hb : (mkPortFolio w.assets).buy_symbol s 1 with
  | error e =>
    rw [hb] at h
    simp only [except_error_bind] at h
    exact Except.noConfusion h
  | ok np =>
    rw [hb] at h
    simp only [except_ok_bind] at h
    cases hdiff : np.get_difference_from_target with
    | error e =>
      rw [hdiff] at h
      simp only [except_error_bind] at h
      exact Except.noConfusion h
    | ok v =>
      rw [hdiff] at h
      simp only [except_ok_bind] at h
      by_cases hget : (dictGet d (floatStr3 v)).isSome = true
      · rw [if_pos hget] at h
        cases hb2 : np.buy_symbol s 1 with
        | error e =>
          rw [hb2] at h
          simp only [except_error_bind] at h
          exact Except.noConfusion h
        | ok np2 =>
          rw [hb2] at h
          simp only [except_ok_bind, except_pure_eq] at h
          injection h with h2
          exact h2 ▸ dictSet_ne_nil d (floatStr3 v) np2
      · rw [if_neg hget] at h
        simp only [except_pure_eq] at h
        injection h with h2
        exact h2 ▸ dictSet_ne_nil d (floatStr3 v) np

theorem build_candidates_ok {p w : PortFolio} {δ : ℚ} (hδ : 0 < δ)
    (hprice : ∀ a ∈ p.assets, δ ≤ a.market_price)
    (hres : ∀ a ∈ p.assets, a.classification.isSome = true)
    (htot : 0 < p.total_value)
    (hinv : LoopInv p w) :
    ∃ d, build_candidates w (p.assets.map Asset.symbol) = .ok d := by
  unfold build_candidates
  obtain ⟨d, hd, _⟩ := foldlM_except_ok (fun d s => evaluate_symbol w d s)
    (fun _ => True) (p.assets.map Asset.symbol)
    (fun d0 s _ hs => by
      obtain ⟨d', hd'⟩ := evaluate_symbol_ok hδ hprice hres htot hinv d0 hs
      exact ⟨d', hd', trivial⟩)
    [] trivial
  exact ⟨d, hd⟩

theorem build_candidates_ne_nil {w : PortFolio} {syms : List String}
    {d : List (String × PortFolio)} (h : build_candidates w syms = .ok d)
    (hne : syms ≠ []) : d ≠ [] := by
  unfold build_candidates at h
  exact foldlM_except_last _ (fun d => d ≠ [])
    (fun d0 s d1 hs => evaluate_symbol_ne_nil hs) syms [] d hne h

theorem rebalance_step_ok {p w : PortFolio} {δ : ℚ} (hδ : 0 < δ)
    (hprice : ∀ a ∈ p.assets, δ ≤ a.market_price)
    (hres : ∀ a ∈ p.assets, a.classification.isSome = true)
    (htot : 0 < p.total_value)
    (hne : p.assets ≠ [])
    (hinv : LoopInv p w) :
    ∃ next, rebalance_step w (p.assets.map Asset.symbol) = .ok next ∧
      LoopInv p next ∧ w.total_value + δ ≤ next.total_value := by
  obtain ⟨d, hd⟩ := build_candidates_ok hδ hprice hres htot hinv
  have hdne : d ≠ [] := build_candidates_ne_nil hd (by simpa using hne)
  have hkne : dictKeys d ≠ [] := by
    cases d with
    | nil => exact absurd rfl hdne
    | cons e rest => simp [dictKeys]
  obtain ⟨mk, hm⟩ : ∃ mk, minKey (dictKeys d) = some mk := by
    cases hk : dictKeys d with
    | nil => exact absurd hk hkne
    | cons k ks => exact ⟨minFold k ks, minKey_cons k ks⟩
  have hmk_mem : mk ∈ dictKeys d := (minKey_spec hm).1
  obtain ⟨next, hg⟩ := Option.isSome_iff_exists.mp (mem_keys_isSome d mk hmk_mem)
  obtain ⟨hsym, hpr, hcl, hwf, hge⟩ := hinv
  obtain ⟨s, k, a, hk2, hf, hassets, htot2⟩ :=
    build_candidates_shape hd (mk, next) (dictGet_mem hg)
  have hamem : a ∈ w.assets := List.mem_of_find?_eq_some hf
  have hpa : δ ≤ a.market_price :=
    forall_mem_map_eq Asset.market_price (fun q => δ ≤ q) hpr hprice a hamem
  have hnext_tot : next.total_value = sum_values w.assets + k * a.market_price := by
    rw [htot2, hassets, sum_values_buy_first w.assets s k a hf]
  have hgrow : w.total_value + δ ≤ next.total_value := by
    rw [hnext_tot, ← hwf]
    rcases hk2 with h1 | h1 <;> rw [h1] <;> push_cast <;> linarith
  refine ⟨next, ?_, ⟨?_, ?_, ?_, htot2, ?_⟩, hgrow⟩
  · unfold rebalance_step
    rw [hd]
    simp only [except_ok_bind]
    rw [hm]
    show (match dictGet d mk with
      | some np => pure np
      | none => Except.error "KeyError" : Except String PortFolio) = Except.ok next
    rw [hg]
    rfl
  · rw [hassets, buy_first_map_symbol, hsym]
  · rw [hassets, buy_first_map_price, hpr]
  · rw [hassets, buy_first_map_classification, hcl]
  · linarith

/-! #### Termination of the outer loop -/

theorem rebalance_loop_term {p : PortFolio} {δ : ℚ} (hδ : 0 < δ)
    (hprice : ∀ a ∈ p.assets, δ ≤ a.market_price)
    (hres : ∀ a ∈ p.assets, a.classification.isSome = true)
    (hcents : ∀ a ∈ p.assets, isCents a.market_price)
    (htot : 0 < p.total_value)
    (hne : p.assets ≠ []) :
    ∀ (n : ℕ) (cash : ℚ) (w prev : PortFolio), LoopInv p w → cash ≤ δ * n →
      ∃ r, rebalance_loop (n + 1) cash w prev (p.assets.map Asset.symbol) = some r := by
  intro n
  induction n with
  | zero =>
    intro cash w prev hinv hcash
    refine ⟨prev, ?_⟩
    rw [rebalance_loop]
    rw [if_neg (by push_cast at hcash; linarith)]
  | succ n ih =>
    intro cash w prev hinv hcash
    by_cases hc : 0 < cash
    · obtain ⟨next, hstep, hinv2, hgrow⟩ := rebalance_step_ok hδ hprice hres htot hne hinv
      have hwcents : ∀ x ∈ w.assets, isCents x.market_price :=
        forall_mem_map_eq Asset.market_price isCents hinv.2.1 hcents
      have hncents : ∀ x ∈ next.assets, isCents x.market_price :=
        forall_mem_map_eq Asset.market_price isCents hinv2.2.1 hcents
      have hwtc : isCents w.total_value := hinv.2.2.2.1 ▸ isCents_sum_values w.assets hwcents
      have hntc : isCents next.total_value :=
        hinv2.2.2.2.1 ▸ isCents_sum_values next.assets hncents
      have hcost : pyRound (next.total_value - w.total_value) 2
          = next.total_value - w.total_value := pyRound_cents (isCents_sub hntc hwtc)
      obtain ⟨r, hr⟩ := ih (cash - pyRound (next.total_value - w.total_value) 2) next w
        hinv2 (by rw [hcost]; push_cast at hcash ⊢; linarith)
      refine ⟨r, ?_⟩
      rw [rebalance_loop, if_pos hc, hstep]
      exact hr
    · exact ⟨prev, by rw [rebalance_loop, if_neg hc]⟩

/-! ### Heap-passing embedding (object identity and mutation)

Python objects are mutable and aliased; `rebalance_portfolio` relies on
`copy.deepcopy` so that buying into a hypothetical portfolio never mutates
the caller's asset objects.  To state that the starting portfolio is left
untouched, the allocator is re-embedded with an explicit store of `Asset`
objects: a portfolio holds references into the store, `deepcopy` allocates
fresh cells holding copies, and `buy_symbol` mutates the referenced cell in
place and recomputes the cached total from the store. -/

/-- Placeholder object for dangling references (never hit on valid runs). -/
def defaultAsset : Asset :=
  { symbol := "", market_price := 0, quantity := 0, description := ""
    classification := none }

/-- The store of `Asset` objects. -/
abbrev Heap := List Asset

/-- Dereference. -/
def heapRead (h : Heap) (r : ℕ) : Asset := (h[r]?).getD defaultAsset

/-- A `PortFolio` object in the heap model: asset references plus the
cached `total_value`. -/
structure HPortfolio where
  refs : List ℕ
  total_value : ℚ
deriving DecidableEq, Repr

/-- View a heap portfolio as a value portfolio (the fields Python reads). -/
def toPortFolio (h : Heap) (p : HPortfolio) : PortFolio :=
  { assets := p.refs.map (heapRead h), total_value := p.total_value }

/-- `copy.deepcopy` of an asset list: allocate fresh cells holding copies. -/
def hDeepcopy (h : Heap) (refs : List ℕ) : Heap × List ℕ :=
  (h ++ refs.map (heapRead h), List.range' h.length refs.length)

/-- `PortFolio.__init__` in the heap model. -/
def hMkPortfolio (h : Heap) (refs : List ℕ) : HPortfolio :=
  { refs := refs, total_value := sum_values (refs.map (heapRead h)) }

/-- `PortFolio.buy_symbol` in the heap model: find the first reference whose
object matches, mutate that cell in place, recompute the cached total. -/
def hBuy (h : Heap) (p : HPortfolio) (symbol : String) (shares : ℤ) :
    Except String (Heap × HPortfolio) :=
  match p.refs.find? (fun r => (heapRead h r).symbol = symbol) with
  | some r =>
    let a := heapRead h r
    let h2 : Heap := h.set r { a with quantity := a.quantity + shares }
    .ok (h2, { refs := p.refs, total_value := sum_values (p.refs.map (heapRead h2)) })
  | none => .error ("No owned shares: " ++ symbol)

/-- The inner loop body of `rebalance_portfolio` in the heap model. -/
def hEvaluate (working : HPortfolio) (st : Heap × List (String × HPortfolio))
    (symbol : String) : Except String (Heap × List (String × HPortfolio)) := do
  let copied := hDeepcopy st.1 working.refs
  let np := hMkPortfolio copied.1 copied.2
  let bought ← hBuy copied.1 np symbol 1
  let diff ← (toPortFolio bought.1 bought.2).get_difference_from_target
  let diff_key := floatStr3 diff
  if (dictGet st.2 diff_key).isSome then do
    let bought2 ← hBuy bought.1 bought.2 symbol 1
    pure (bought2.1, dictSet st.2 diff_key bought2.2)
  else pure (bought.1, dictSet st.2 diff_key bought.2)

/-- One outer-loop iteration in the heap model, up to candidate selection. -/
def hStep (h : Heap) (working : HPortfolio) (symbol_list : List String) :
    Except String (Heap × HPortfolio) := do
  let folded ← symbol_list.foldlM (fun st s => hEvaluate working st s)
    (h, ([] : List (String × HPortfolio)))
  match minKey (dictKeys folded.2) with
  | none => .error "min() arg is an empty sequence"
  | some min_diff =>
    match dictGet folded.2 min_diff with
    | some np => pure (folded.1, np)
    | none => .error "KeyError"

/-- The `while` loop in the heap model. -/
def hLoop : ℕ → ℚ → Heap → HPortfolio → HPortfolio → List String →
    Option (Heap × HPortfolio)
  | 0, _, _, _, _, _ => none
  | fuel + 1, cash, h, working, previous, symbol_list =>
    if 0 < cash then
      match hStep h working symbol_list with
      | .error _ => none
      | .ok stepped =>
        let cost_to_buy := pyRound (stepped.2.total_value - working.total_value) 2
        hLoop fuel (cash - cost_to_buy) stepped.1 stepped.2 working symbol_list
    else some (h, previous)

/-- `rebalance_portfolio` in the heap model: deep-copy the starting
portfolio (fresh cells, copied cached total), read the symbol list from the
original, then run the loop on the copy. -/
def hRebalance_portfolio (fuel : ℕ) (h : Heap) (portfolio : HPortfolio)
    (cash_to_invest : ℚ) : Option (Heap × HPortfolio) :=
  let copied := hDeepcopy h portfolio.refs
  let working : HPortfolio := { refs := copied.2, total_value := portfolio.total_value }
  hLoop fuel cash_to_invest copied.1 working working
    (portfolio.refs.map (fun r => (heapRead h r).symbol))

/-! #### Frame lemmas for the heap model -/

theorem hDeepcopy_fst (h : Heap) (refs : List ℕ) :
    (hDeepcopy h refs).1 = h ++ refs.map (heapRead h) := rfl

theorem hDeepcopy_snd (h : Heap) (refs : List ℕ) :
    (hDeepcopy h refs).2 = List.range' h.length refs.length := rfl

theorem hEvaluate_eq (working : HPortfolio) (st : Heap × List (String × HPortfolio))
    (s : String) :
    hEvaluate working st s =
      hBuy (hDeepcopy st.1 working.refs).1
          (hMkPortfolio (hDeepcopy st.1 working.refs).1 (hDeepcopy st.1 working.refs).2) s 1
        >>= fun bought =>
      (toPortFolio bought.1 bought.2).get_difference_from_target >>= fun diff =>
      if (dictGet st.2 (floatStr3 diff)).isSome then
        hBuy bought.1 bought.2 s 1 >>= fun bought2 =>
          pure (bought2.1, dictSet st.2 (floatStr3 diff) bought2.2)
      else pure (bought.1, dictSet st.2 (floatStr3 diff) bought.2) := rfl

theorem hBuy_elim {h : Heap} {p : HPortfolio} {s : String} {k : ℤ}
    {out : Heap × HPortfolio} (hb : hBuy h p s k = .ok out) :
    ∃ r, r ∈ p.refs ∧
      out.1 = h.set r { heapRead h r with quantity := (heapRead h r).quantity + k } ∧
      out.2.refs = p.refs := by
  unfold hBuy at hb
  cases hf : p.refs.find? (fun r => (heapRead h r).symbol = s) with
  | none => rw [hf] at hb; exact Except.noConfusion hb
  | some r =>
    rw [hf] at hb
    have hb2 : Except.ok
        ((h.set r { heapRead h r with quantity := (heapRead h r).quantity + k } : Heap),
          ({ refs := p.refs, total_value := sum_values (p.refs.map (heapRead
            (h.set r { heapRead h r with quantity := (heapRead h r).quantity + k }))) }
            : HPortfolio)) = Except.ok out := hb
    injection hb2 with h3
    exact ⟨r, List.mem_of_find?_eq_some hf, by rw [← h3], by rw [← h3]⟩

/-- The part of the heap below `n` agrees with the original `h0` (and the
heap has grown at least to length `n`). -/
def heapFrame (n : ℕ) (h0 h : Heap) : Prop :=
  n ≤ h.length ∧ ∀ r, r < n → h[r]? = h0[r]?

theorem heapFrame_refl {n : ℕ} {h0 : Heap} (hn : n ≤ h0.length) : heapFrame n h0 h0 :=
  ⟨hn, fun _ _ => rfl⟩

theorem heapFrame_append {n : ℕ} {h0 h : Heap} (l : List Asset)
    (hf : heapFrame n h0 h) : heapFrame n h0 (h ++ l) := by
  refine ⟨le_trans hf.1 (by simp), fun r hr => ?_⟩
  rw [List.getElem?_append, if_pos (lt_of_lt_of_le hr hf.1)]
  exact hf.2 r hr

theorem heapFrame_set {n : ℕ} {h0 h : Heap} {r : ℕ} (a : Asset)
    (hf : heapFrame n h0 h) (hr : n ≤ r) : heapFrame n h0 (h.set r a) := by
  refine ⟨by rw [List.length_set]; exact hf.1, fun r2 hr2 => ?_⟩
  rw [List.getElem?_set_ne (by omega)]
  exact hf.2 r2 hr2

theorem hEvaluate_frame {n : ℕ} {h0 : Heap} {working : HPortfolio}
    {st st2 : Heap × List (String × HPortfolio)} {s : String}
    (hf : heapFrame n h0 st.1)
    (h : hEvaluate working st s = .ok st2) : heapFrame n h0 st2.1 := by
  rw [hEvaluate_eq] at h
  have hcopy1 : heapFrame n h0 (hDeepcopy st.1 working.refs).1 := by
    rw [hDeepcopy_fst]
    exact heapFrame_append _ hf
  have hrge : ∀ r ∈ (hDeepcopy st.1 working.refs).2, st.1.length ≤ r := by
    intro r hr
    rw [hDeepcopy_snd] at hr
    exact (List.mem_range'_1.mp hr).1
  cases hb : hBuy (hDeepcopy st.1 working.refs).1
      (hMkPortfolio (hDeepcopy st.1 working.refs).1 (hDeepcopy st.1 working.refs).2) s 1 with
  | error e =>
    rw [hb] at h
    simp only [except_error_bind] at h
    exact Except.noConfusion h
  | ok bought =>
    rw [hb] at h
    simp only [except_ok_bind] at h
    obtain ⟨r, hrmem, hheap, hrefs2⟩ := hBuy_elim hb
    have hrn : n ≤ r := le_trans hf.1 (hrge r hrmem)
    have hfb : heapFrame n h0 bought.1 := by
      rw [hheap]
      exact heapFrame_set _ hcopy1 hrn
    cases hdiff : (toPortFolio bought.1 bought.2).get_difference_from_target with
    | error e =>
      rw [hdiff] at h
      simp only [except_error_bind] at h
      exact Except.noConfusion h
    | ok v =>
      rw [hdiff] at h
      simp only [except_ok_bind] at h
      by_cases hget : (dictGet st.2 (floatStr3 v)).isSome = true
      · rw [if_pos hget] at h
        cases hb2 : hBuy bought.1 bought.2 s 1 with
        | error e =>
          rw [hb2] at h
          simp only [except_error_bind] at h
          exact Except.noConfusion h
        | ok bought2 =>
          rw [hb2] at h
          simp only [except_ok_bind, except_pure_eq] at h
          injection h with h2
          obtain ⟨r2, hrmem2, hheap2, _⟩ := hBuy_elim hb2
          rw [hrefs2] at hrmem2
          have hr2n : n ≤ r2 := le_trans hf.1 (hrge r2 hrmem2)
          have hfb2 : heapFrame n h0 bought2.1 := by
            rw [hheap2]
            exact heapFrame_set _ hfb hr2n
          rw [← h2]
          exact hfb2
      · rw [if_neg hget] at h
        simp only [except_pure_eq] at h
        injection h with h2
        rw [← h2]
        exact hfb

theorem hStep_frame {n : ℕ} {h0 h : Heap} {working : HPortfolio} {syms : List String}
    {out : Heap × HPortfolio} (hf : heapFrame n h0 h)
    (hs : hStep h working syms = .ok out) : heapFrame n h0 out.1 := by
  unfold hStep at hs
  cases hfold : syms.foldlM (fun st s => hEvaluate working st s)
      (h, ([] : List (String × HPortfolio))) with
  | error e =>
    rw [hfold] at hs
    simp only [except_error_bind] at hs
    exact Except.noConfusion hs
  | ok folded =>
    rw [hfold] at hs
    simp only [except_ok_bind] at hs
    have hffold : heapFrame n h0 folded.1 :=
      foldlM_except_inv _ (fun st => heapFrame n h0 st.1)
        (fun st x st3 hP hstep => hEvaluate_frame hP hstep) syms
        (h, []) folded hf hfold
    cases hm : minKey (dictKeys folded.2) with
    | none =>
      rw [hm] at hs
      exact Except.noConfusion hs
    | some mk =>
      rw [hm] at hs
      have hs1 : (match dictGet folded.2 mk with
          | some np => pure (folded.1, np)
          | none => Except.error "KeyError" : Except String (Heap × HPortfolio))
          = Except.ok out := hs
      cases hg : dictGet folded.2 mk with
      | none =>
        rw [hg] at hs1
        exact Except.noConfusion hs1
      | some np =>
        rw [hg] at hs1
        have hs2 : Except.ok ((folded.1, np)) = Except.ok out := hs1
        injection hs2 with h3
        rw [← h3]
        exact hffold

theorem hLoop_frame {n : ℕ} {h0 : Heap} (syms : List String) :
    ∀ (fuel : ℕ) (cash : ℚ) (h : Heap) (working previous : HPortfolio)
      (out : Heap × HPortfolio),
      heapFrame n h0 h → hLoop fuel cash h working previous syms = some out →
      heapFrame n h0 out.1 := by
  intro fuel
  induction fuel with
  | zero =>
    intro cash h w prev out hf hr
    exact absurd hr (by simp [hLoop])
  | succ fuel ih =>
    intro cash h w prev out hf hr
    rw [hLoop] at hr
    by_cases hc : 0 < cash
    · rw [if_pos hc] at hr
      cases hstep : hStep h w syms with
      | error e =>
        rw [hstep] at hr
        exact Option.noConfusion hr
      | ok stepped =>
        rw [hstep] at hr
        have hr2 : hLoop fuel (cash - pyRound (stepped.2.total_value - w.total_value) 2)
            stepped.1 stepped.2 w syms = some out := hr
        exact ih _ _ _ _ _ (hStep_frame hf hstep) hr2
    · rw [if_neg hc] at hr
      injection hr with h2
      rw [← h2]
      exact hf

theorem hRebalance_frame {fuel : ℕ} {h : Heap} {p : HPortfolio} {budget : ℚ}
    {out : Heap × HPortfolio}
    (hr : hRebalance_portfolio fuel h p budget = some out) :
    ∀ r, r < h.length → out.1[r]? = h[r]? := by
  unfold hRebalance_portfolio at hr
  have hf0 : heapFrame h.length h (hDeepcopy h p.refs).1 := by
    rw [hDeepcopy_fst]
    exact heapFrame_append _ (heapFrame_refl (le_refl _))
  have hfinal := hLoop_frame _ fuel budget (hDeepcopy h p.refs).1
    { refs := (hDeepcopy h p.refs).2, total_value := p.total_value }
    { refs := (hDeepcopy h p.refs).2, total_value := p.total_value }
    out hf0 hr
  exact fun r hrlt => hfinal.2 r hrlt

/-! #### Per-index frame of `buy_first` -/

theorem buy_first_idx {l : List Asset} {s : String} {a : Asset} (n : ℤ)
    (h : l.find? (fun x => x.symbol = s) = some a) :
    ∃ i : ℕ, l[i]? = some a ∧
      (buy_first l s n)[i]? = some { a with quantity := a.quantity + n } ∧
      ∀ j : ℕ, j ≠ i → (buy_first l s n)[j]? = l[j]? := by
  induction l with
  | nil => simp at h
  | cons b rest ih =>
    by_cases hb : b.symbol = s
    · rw [List.find?_cons_of_pos _ (by simpa using hb)] at h
      injection h with h2
      subst h2
      refine ⟨0, by simp, ?_, ?_⟩
      · simp [buy_first, hb]
      · intro j hj
        cases j with
        | zero => exact absurd rfl hj
        | succ j => simp [buy_first, hb]
    · rw [List.find?_cons_of_neg _ (by simpa using hb)] at h
      obtain ⟨i, h1, h2, h3⟩ := ih h
      refine ⟨i + 1, ?_, ?_, ?_⟩
      · rw [List.getElem?_cons_succ]; exact h1
      · simp [buy_first, hb, List.getElem?_cons_succ, h2]
      · intro j hj
        cases j with
        | zero => simp [buy_first, hb]
        | succ j => simp [buy_first, hb, List.getElem?_cons_succ, h3 j (by omega)]

/-! #### Partition of the total value into class buckets -/

theorem total_value_partition (p : PortFolio) :
    sum_values p.assets =
      class_value p none +
      (class_value p (some .STOCKS_USA_SMALL_CAP) +
      (class_value p (some .STOCKS_USA_SP500) +
      (class_value p (some .STOCKS_EMERGING_MARKET) +
      (class_value p (some .STOCKS_INTERNATIONAL) +
      (class_value p (some .BONDS_CORP) +
      (class_value p (some .BONDS_EMERGING_MARKET) +
      class_value p (some .REAL_ESTATE))))))) := by
  have hgen : ∀ l : List Asset,
      sum_values l =
        sum_values (l.filter (fun a => a.classification = none)) +
        (sum_values (l.filter (fun a => a.classification = some .STOCKS_USA_SMALL_CAP)) +
        (sum_values (l.filter (fun a => a.classification = some .STOCKS_USA_SP500)) +
        (sum_values (l.filter (fun a => a.classification = some .STOCKS_EMERGING_MARKET)) +
        (sum_values (l.filter (fun a => a.classification = some .STOCKS_INTERNATIONAL)) +
        (sum_values (l.filter (fun a => a.classification = some .BONDS_CORP)) +
        (sum_values (l.filter (fun a => a.classification = some .BONDS_EMERGING_MARKET)) +
        sum_values (l.filter (fun a => a.classification = some .REAL_ESTATE)))))))) := by
    intro l
    induction l with
    | nil => simp [sum_values]
    | cons a rest ih =>
      rcases hc : a.classification with _ | c
      · simp [List.filter_cons, hc, sum_values_cons, ih]
        try ring
      · cases c <;>
          · simp [List.filter_cons, hc, sum_values_cons, ih]
            try ring
  exact hgen p.assets

/-! ### Concrete portfolios used by the claim theorems -/

/-- Twelve duplicate VCIT holdings (the loader can produce duplicate-symbol
rows: case variants of one ticker normalize to the same upper-cased symbol)
plus one VOO holding.  Deviation scores reach two-digit territory here,
which is what separates the string order from the numeric order. -/
def cexAssets1 : List Asset :=
  List.replicate 12 (mkAsset "VCIT" 1 1 "") ++ [mkAsset "VOO" 1 1 ""]

def cexP1 : PortFolio := mkPortFolio cexAssets1

def cexSyms1 : List String := cexP1.assets.map (fun a => a.symbol)

/-- The candidate the loop selects at `cexP1`: the double-bought VCIT
portfolio recorded under the key `"10.271"`. -/
def cexSel1 : PortFolio :=
  mkPortFolio (mkAsset "VCIT" 1 3 "" ::
    (List.replicate 11 (mkAsset "VCIT" 1 1 "") ++ [mkAsset "VOO" 1 1 ""]))

/-- The other recorded candidate at `cexP1`: one VOO share bought, key
`"9.343"`, numerically the better portfolio. -/
def cexAlt1 : PortFolio :=
  mkPortFolio (List.replicate 12 (mkAsset "VCIT" 1 1 "") ++ [mkAsset "VOO" 1 2 ""])

def wP1 : PortFolio := mkPortFolio [mkAsset "VOO" 1 1 ""]

def wSel1 : PortFolio := mkPortFolio [mkAsset "VOO" 1 2 ""]

def wP3 : PortFolio := mkPortFolio [mkAsset "VOO" 100 10 "", mkAsset "VCIT" 50 10 ""]

def wR3 : PortFolio := mkPortFolio [mkAsset "VOO" 100 10 "", mkAsset "VCIT" 50 12 ""]

def cexP4 : PortFolio := mkPortFolio [mkAsset "VAB" 10 1 "", mkAsset "VOO" 10 1 ""]

def wP5 : PortFolio := mkPortFolio [mkAsset "VOO" 10 1 ""]

def wP6 : PortFolio := mkPortFolio [mkAsset "VOO" 10 1 "", mkAsset "VCIT" 5 2 ""]

/-- Seven classified holdings whose class percentages are within `1/5000`
of the targets but not exactly on them (total value 10000). -/
def cexP7 : PortFolio := mkPortFolio [mkAsset "VTWO" 1 1001 "", mkAsset "VOO" 1 3999 "",
  mkAsset "VWO" 1 500 "", mkAsset "VXUS" 1 2500 "", mkAsset "VCIT" 1 1000 "",
  mkAsset "VWOB" 1 500 "", mkAsset "VNQ" 1 500 ""]

/-- Seven classified holdings exactly on target (total value 100). -/
def wP7 : PortFolio := mkPortFolio [mkAsset "VTWO" 1 10 "", mkAsset "VOO" 1 40 "",
  mkAsset "VWO" 1 5 "", mkAsset "VXUS" 1 25 "", mkAsset "VCIT" 1 10 "",
  mkAsset "VWOB" 1 5 "", mkAsset "VNQ" 1 5 ""]

def wH9 : Heap := [mkAsset "VOO" 100 10 "", mkAsset "VCIT" 50 10 ""]

def wHP9 : HPortfolio := HPortfolio.mk [0, 1] 1500

def wP10 : PortFolio := mkPortFolio [mkAsset "vcit" 10 1 ""]

/-! ### Claim C1 -/

set_option maxRecDepth 40000 in
/-- Claim C1 counterexample: at the 13-asset portfolio `cexP1` (12 duplicate
VCIT rows and one VOO), one iteration of the rebalancing loop records the
candidates under the stringified keys `"10.271"` and `"9.343"`, and
`min` over the string keys picks `"10.271"` (`'1' < '9'`), so the selected
working portfolio is `cexSel1` with deviation score `round(31/3, 3) = 10.333`
even though the recorded candidate `cexAlt1` has the strictly smaller score
`round(327/35, 3) = 9.343`.  The selected key is not the numeric minimum. -/
theorem string_min_selection_cex :
    rebalance_step cexP1 cexSyms1 = Except.ok cexSel1 ∧
    build_candidates cexP1 cexSyms1 = Except.ok [("10.271", cexSel1), ("9.343", cexAlt1)] ∧
    cexSel1.get_difference_from_target = Except.ok (pyRound (31/3) 3) ∧
    cexAlt1.get_difference_from_target = Except.ok (pyRound (327/35) 3) ∧
    pyRound (327/35) 3 < pyRound (31/3) 3 := by
  have hbuild : build_candidates cexP1 cexSyms1
      = Except.ok [("10.271", cexSel1), ("9.343", cexAlt1)] := by with_unfolding_all decide
  refine ⟨?_, hbuild, ?_, ?_, by with_unfolding_all decide⟩
  · unfold rebalance_step
    rw [hbuild]
    simp only [except_ok_bind]
    rw [show minKey (dictKeys [("10.271", cexSel1), ("9.343", cexAlt1)]) = some "10.271"
      from by with_unfolding_all decide]
    with_unfolding_all rfl
  · have hsum : (cexSel1.assets.map (diff_term cexSel1)).sum = 31/3 := by
      show ((mkAsset "VCIT" 1 3 "" :: (List.replicate 11 (mkAsset "VCIT" 1 1 "") ++
        [mkAsset "VOO" 1 1 ""])).map (diff_term cexSel1)).sum = 31/3
      simp only [List.replicate_succ, List.replicate_zero, List.map_cons, List.map_append,
        List.map_nil, List.cons_append, List.nil_append, List.sum_cons, List.sum_nil,
        show diff_term cexSel1 (mkAsset "VCIT" 1 3 "") = 5/6 from by with_unfolding_all decide,
        show diff_term cexSel1 (mkAsset "VCIT" 1 1 "") = 5/6 from by with_unfolding_all decide,
        show diff_term cexSel1 (mkAsset "VOO" 1 1 "") = 1/3 from by with_unfolding_all decide]
      norm_num
    rw [get_difference_ok cexSel1 (by with_unfolding_all decide)
      (by with_unfolding_all decide), hsum]
  · have hsum : (cexAlt1.assets.map (diff_term cexAlt1)).sum = 327/35 := by
      show ((List.replicate 12 (mkAsset "VCIT" 1 1 "") ++
        [mkAsset "VOO" 1 2 ""]).map (diff_term cexAlt1)).sum = 327/35
      simp only [List.replicate_succ, List.replicate_zero, List.map_cons, List.map_append,
        List.map_nil, List.cons_append, List.nil_append, List.sum_cons, List.sum_nil,
        show diff_term cexAlt1 (mkAsset "VCIT" 1 1 "") = 53/70 from by with_unfolding_all decide,
        show diff_term cexAlt1 (mkAsset "VOO" 1 2 "") = 9/35 from by with_unfolding_all decide]
      norm_num
    rw [get_difference_ok cexAlt1 (by with_unfolding_all decide)
      (by with_unfolding_all decide), hsum]

/-- Claim C1 (amended): in every iteration of the rebalancing loop the
candidate chosen as the new working portfolio is the one recorded under the
key that is smallest in Python's lexicographic string order among all
recorded keys — which coincides with the numeric minimum only as long as the
stringified scores compare consistently (e.g. all below 10), not in general. -/
theorem selected_candidate_is_string_min {w : PortFolio} {syms : List String}
    {next : PortFolio} (h : rebalance_step w syms = .ok next) :
    ∃ d k, build_candidates w syms = .ok d ∧ dictGet d k = some next ∧
      k ∈ dictKeys d ∧ ∀ k2 ∈ dictKeys d, pyStrLt k2 k = false := by
  obtain ⟨d, mk, hd, hm, hg⟩ := rebalance_step_elim h
  obtain ⟨hmem, hmin⟩ := minKey_spec hm
  exact ⟨d, mk, hd, hg, hmem, hmin⟩

/-- Claim C1 witness: the amended selection property at a concrete one-asset
portfolio. -/
theorem selected_candidate_is_string_min_witness :
    rebalance_step wP1 ["VOO"] = Except.ok wSel1 ∧
    (∃ d k, build_candidates wP1 ["VOO"] = Except.ok d ∧ dictGet d k = some wSel1 ∧
      k ∈ dictKeys d ∧ ∀ k2 ∈ dictKeys d, pyStrLt k2 k = false) :=
  ⟨by with_unfolding_all decide,
    selected_candidate_is_string_min (by with_unfolding_all decide)⟩

/-! ### Claim C2 -/

/-- Claim C2: inside one iteration, when a symbol's one-share hypothetical
portfolio produces a stringified 3-decimal score that is already a key of
the candidate dict (`dict.get` returns a truthy `PortFolio`), the code buys
a second share into that same hypothetical portfolio and records it under
the existing key, replacing the earlier entry: the recorded portfolio is the
working portfolio with exactly two shares of that symbol bought into its
first matching asset. -/
theorem tie_overwrites_and_double_buys {w : PortFolio} {d : List (String × PortFolio)}
    {s : String} {np np2 : PortFolio} {v : ℚ}
    (h1 : (mkPortFolio w.assets).buy_symbol s 1 = .ok np)
    (h2 : np.get_difference_from_target = .ok v)
    (h3 : (dictGet d (floatStr3 v)).isSome = true)
    (h4 : np.buy_symbol s 1 = .ok np2) :
    evaluate_symbol w d s = .ok (dictSet d (floatStr3 v) np2) ∧
    np2.assets = buy_first w.assets s 2 ∧
    dictGet (dictSet d (floatStr3 v) np2) (floatStr3 v) = some np2 := by
  refine ⟨?_, ?_, dictGet_dictSet_self d (floatStr3 v) np2⟩
  · rw [evaluate_symbol_eq, h1]
    simp only [except_ok_bind]
    rw [h2]
    simp only [except_ok_bind]
    rw [if_pos h3, h4]
    simp only [except_ok_bind, except_pure_eq]
  · obtain ⟨a, hf, hnp⟩ := buy_symbol_ok_elim h1
    obtain ⟨a2, hf2, hnp2⟩ := buy_symbol_ok_elim h4
    rw [hnp2, mkPortFolio_assets, hnp]
    simp only [mkPortFolio_assets]
    rw [buy_first_twice]
    norm_num

/-- Claim C2 witness: the tie path at a concrete one-asset portfolio whose
one-share score 0.6 is already a key of the dict. -/
theorem tie_overwrites_and_double_buys_witness :
    evaluate_symbol wP1 [("0.6", wP1)] "VOO"
      = Except.ok (dictSet [("0.6", wP1)] (floatStr3 (3/5)) (mkPortFolio [mkAsset "VOO" 1 3 ""])) ∧
    (mkPortFolio [mkAsset "VOO" 1 3 ""]).assets = buy_first wP1.assets "VOO" 2 ∧
    dictGet (dictSet [("0.6", wP1)] (floatStr3 (3/5)) (mkPortFolio [mkAsset "VOO" 1 3 ""]))
      (floatStr3 (3/5)) = some (mkPortFolio [mkAsset "VOO" 1 3 ""]) :=
  @tie_overwrites_and_double_buys wP1 [("0.6", wP1)] "VOO" wSel1
    (mkPortFolio [mkAsset "VOO" 1 3 ""]) (3/5)
    (by with_unfolding_all decide) (by with_unfolding_all decide)
    (by with_unfolding_all decide) (by with_unfolding_all decide)

/-! ### Claim C3 -/

/-- Claim C3: for every starting portfolio with constructor-rounded
(2-decimal) prices and a fresh cached total, and every non-negative budget,
any portfolio the rebalancing loop returns has `total_value` at most
`starting_portfolio.total_value + budget`: the loop always returns the
previous working portfolio, the last state reached while cash was still
strictly positive, so the step that drove cash to zero or below is
discarded. -/
theorem rebalance_never_overspends (fuel : ℕ) (p : PortFolio) (budget : ℚ)
    (r : PortFolio)
    (hcents : ∀ a ∈ p.assets, isCents a.market_price)
    (hwf : p.total_value = sum_values p.assets)
    (hb : 0 ≤ budget)
    (hr : rebalance_portfolio fuel p budget = some r) :
    r.total_value ≤ p.total_value + budget := by
  unfold rebalance_portfolio at hr
  exact rebalance_loop_le (p.assets.map (fun a => a.symbol)) (p.total_value + budget)
    fuel budget p p r hcents hwf (by ring) (by linarith) hr

set_option maxRecDepth 40000 in
/-- Claim C3 witness: a concrete run (budget 120 over VOO at 100 and VCIT at
50) returns a portfolio worth 1600 ≤ 1500 + 120. -/
theorem rebalance_never_overspends_witness :
    rebalance_portfolio 5 wP3 120 = some wR3 ∧ (0 : ℚ) ≤ 120 ∧
    wR3.total_value ≤ wP3.total_value + 120 :=
  ⟨by with_unfolding_all decide, by norm_num,
    rebalance_never_overspends 5 wP3 120 wR3 (by with_unfolding_all decide)
      (by with_unfolding_all decide) (by norm_num) (by with_unfolding_all decide)⟩

/-! ### Claim C4 -/

set_option maxRecDepth 40000 in
/-- Claim C4 counterexample: a portfolio holding the unclassified symbol VAB
(not in the classification map, so its classification is `None`).  The asset
does contribute its value to `total_value` (20) and per-class percentage
lookups for resolved classes succeed, but computing the deviation score does
NOT succeed: the per-asset loop reaches `get_percentage_target(None)`, whose
`match` falls through to `raise RuntimeError` — the unclassified asset is
not silently excluded. -/
theorem unclassified_asset_raises_cex :
    (mkAsset "VAB" 10 1 "").classification = none ∧
    cexP4.total_value = 20 ∧
    cexP4.get_percent_classification (some .STOCKS_USA_SP500) = Except.ok (1/2) ∧
    cexP4.get_difference_from_target
      = Except.error "case does not match any percentage target" :=
  ⟨by with_unfolding_all decide, by with_unfolding_all decide,
    by with_unfolding_all decide, by with_unfolding_all decide⟩

/-- Claim C4 (amended): an asset whose identifier is not in the
classification map contributes its value to `total_value` but to no class
bucket (the total partitions into the `None` bucket plus the seven class
buckets), yet computing the deviation score of any portfolio containing
such an asset raises (the target lookup on the unresolved classification
fails) instead of silently excluding it. -/
theorem unclassified_asset_raises (p : PortFolio) (a : Asset)
    (ha : a ∈ p.assets) (hnone : a.classification = none) :
    (∃ e, p.get_difference_from_target = Except.error e) ∧
    sum_values p.assets =
      class_value p none +
      (class_value p (some .STOCKS_USA_SMALL_CAP) +
      (class_value p (some .STOCKS_USA_SP500) +
      (class_value p (some .STOCKS_EMERGING_MARKET) +
      (class_value p (some .STOCKS_INTERNATIONAL) +
      (class_value p (some .BONDS_CORP) +
      (class_value p (some .BONDS_EMERGING_MARKET) +
      class_value p (some .REAL_ESTATE))))))) :=
  ⟨get_difference_err p a ha hnone, total_value_partition p⟩

/-- Claim C4 witness: the amended statement instantiated at the concrete
two-asset portfolio with the unclassified VAB holding. -/
theorem unclassified_asset_raises_witness :
    ((mkAsset "VAB" 10 1 "") ∈ cexP4.assets) ∧
    ((∃ e, cexP4.get_difference_from_target = Except.error e) ∧
      sum_values cexP4.assets =
        class_value cexP4 none +
        (class_value cexP4 (some .STOCKS_USA_SMALL_CAP) +
        (class_value cexP4 (some .STOCKS_USA_SP500) +
        (class_value cexP4 (some .STOCKS_EMERGING_MARKET) +
        (class_value cexP4 (some .STOCKS_INTERNATIONAL) +
        (class_value cexP4 (some .BONDS_CORP) +
        (class_value cexP4 (some .BONDS_EMERGING_MARKET) +
        class_value cexP4 (some .REAL_ESTATE)))))))) :=
  ⟨by with_unfolding_all decide,
    unclassified_asset_raises cexP4 (mkAsset "VAB" 10 1 "")
      (by with_unfolding_all decide) (by with_unfolding_all decide)⟩

/-! ### Claim C5 -/

/-- Claim C5: `buy_symbol` raises `RuntimeError("No owned shares: ...")` if
and only if no asset in the portfolio bears the requested symbol (so the
error case produces no modified portfolio at all), and on success the
returned portfolio is the original list with the first matching asset's
quantity incremented by the share count and the total recomputed from the
mutated list. -/
theorem buy_symbol_error_iff (p : PortFolio) (s : String) (n : ℤ) :
    (p.buy_symbol s n = Except.error ("No owned shares: " ++ s) ↔
      ∀ a ∈ p.assets, a.symbol ≠ s) ∧
    ∀ p2, p.buy_symbol s n = Except.ok p2 →
      p2.assets = buy_first p.assets s n ∧
      p2.total_value = sum_values (buy_first p.assets s n) := by
  constructor
  · constructor
    · intro h a ha hs
      have hmem : s ∈ p.assets.map Asset.symbol := hs ▸ List.mem_map_of_mem Asset.symbol ha
      obtain ⟨b, hf⟩ := Option.isSome_iff_exists.mp
        ((find?_symbol_isSome_iff p.assets s).mpr hmem)
      rw [buy_symbol_of_find n hf] at h
      exact Except.noConfusion h
    · intro h
      apply buy_symbol_of_none
      apply List.find?_eq_none.mpr
      intro x hx
      simp only [decide_eq_true_eq]
      exact h x hx
  · intro p2 hok
    obtain ⟨a, hf, hp2⟩ := buy_symbol_ok_elim hok
    exact ⟨by rw [hp2]; rfl, by rw [hp2]; rfl⟩

/-- Claim C5 witness: buying an unheld symbol raises; buying a held symbol
yields the incremented list with a recomputed total. -/
theorem buy_symbol_error_iff_witness :
    wP5.buy_symbol "XYZ" 1 = Except.error ("No owned shares: " ++ "XYZ") ∧
    ∀ p2, wP5.buy_symbol "VOO" 2 = Except.ok p2 →
      p2.assets = buy_first wP5.assets "VOO" 2 ∧
      p2.total_value = sum_values (buy_first wP5.assets "VOO" 2) :=
  ⟨(buy_symbol_error_iff wP5 "XYZ" 1).1.mpr (by with_unfolding_all decide),
    (buy_symbol_error_iff wP5 "VOO" 2).2⟩

/-! ### Claim C6 -/

/-- Claim C6: when the cached total is fresh (as the constructor and every
prior successful buy leave it), a successful `buy_symbol(s, n)` increases
`total_value` by exactly `n` times the unit price of the matched asset, and
every other position in the asset list is left completely unchanged — the
matched (first) position only has its quantity incremented. -/
theorem buy_symbol_total_and_frame (p : PortFolio) (s : String) (n : ℤ) (a : Asset)
    (p2 : PortFolio)
    (hwf : p.total_value = sum_values p.assets)
    (hfind : p.get_asset s = some a)
    (hok : p.buy_symbol s n = Except.ok p2) :
    p2.total_value = p.total_value + n * a.market_price ∧
    ∃ i : ℕ, p.assets[i]? = some a ∧
      p2.assets[i]? = some { a with quantity := a.quantity + n } ∧
      ∀ j : ℕ, j ≠ i → p2.assets[j]? = p.assets[j]? := by
  obtain ⟨b, hf, hp2⟩ := buy_symbol_ok_elim hok
  have hab : b = a := by
    unfold PortFolio.get_asset at hfind
    rw [hf] at hfind
    injection hfind
  subst hab
  constructor
  · rw [hp2, mkPortFolio_total, sum_values_buy_first p.assets s n b hf, hwf]
  · obtain ⟨i, h1, h2, h3⟩ := buy_first_idx n hf
    refine ⟨i, h1, ?_, ?_⟩
    · rw [hp2, mkPortFolio_assets]
      exact h2
    · intro j hj
      rw [hp2, mkPortFolio_assets]
      exact h3 j hj

/-- Claim C6 witness: buying 3 VCIT at unit price 5 into a fresh two-asset
portfolio adds exactly 15 to the total and leaves the VOO position intact. -/
theorem buy_symbol_total_and_frame_witness :
    wP6.total_value = sum_values wP6.assets ∧
    wP6.get_asset "VCIT" = some (mkAsset "VCIT" 5 2 "") ∧
    wP6.buy_symbol "VCIT" 3
      = Except.ok (mkPortFolio [mkAsset "VOO" 10 1 "", mkAsset "VCIT" 5 5 ""]) ∧
    ((mkPortFolio [mkAsset "VOO" 10 1 "", mkAsset "VCIT" 5 5 ""]).total_value
        = wP6.total_value + 3 * (mkAsset "VCIT" 5 2 "").market_price ∧
      ∃ i : ℕ, wP6.assets[i]? = some (mkAsset "VCIT" 5 2 "") ∧
        (mkPortFolio [mkAsset "VOO" 10 1 "", mkAsset "VCIT" 5 5 ""]).assets[i]?
          = some { mkAsset "VCIT" 5 2 "" with
              quantity := (mkAsset "VCIT" 5 2 "").quantity + 3 } ∧
        ∀ j : ℕ, j ≠ i →
          (mkPortFolio [mkAsset "VOO" 10 1 "", mkAsset "VCIT" 5 5 ""]).assets[j]?
            = wP6.assets[j]?) :=
  ⟨by with_unfolding_all decide, by with_unfolding_all decide,
    by with_unfolding_all decide,
    buy_symbol_total_and_frame wP6 "VCIT" 3 (mkAsset "VCIT" 5 2 "")
      (mkPortFolio [mkAsset "VOO" 10 1 "", mkAsset "VCIT" 5 5 ""])
      (by with_unfolding_all decide) (by with_unfolding_all decide)
      (by with_unfolding_all decide)⟩

/-! ### Claim C7 -/

set_option maxRecDepth 40000 in
/-- Claim C7 counterexample: a seven-class portfolio (total 10000) whose
small-cap percentage is 1001/10000 rather than the 10/100 target (and the
S&P percentage 3999/10000 rather than 40/100), yet whose deviation score is
exactly 0: the unrounded deviation sum 2/10000 disappears under the final
3-decimal rounding, so a zero score does not imply that every represented
class sits exactly on its target. -/
theorem deviation_zero_without_exact_match_cex :
    cexP7.get_difference_from_target = Except.ok 0 ∧
    (mkAsset "VTWO" 1 1001 "") ∈ cexP7.assets ∧
    (mkAsset "VTWO" 1 1001 "").classification = some .STOCKS_USA_SMALL_CAP ∧
    get_percentage_target (some .STOCKS_USA_SMALL_CAP) = Except.ok (10/100) ∧
    cexP7.get_percent_classification (some .STOCKS_USA_SMALL_CAP)
      ≠ Except.ok (10/100) :=
  ⟨by with_unfolding_all decide, by with_unfolding_all decide,
    by with_unfolding_all decide, by with_unfolding_all decide,
    by with_unfolding_all decide⟩

/-- Claim C7 (amended): for every portfolio with non-zero total value and
resolvable classes the deviation score computes successfully and is
non-negative, and it is 0 whenever every held asset's class percentage
equals that class's target exactly — but (per the counterexample) it can
also be 0 when the percentages merely round to the targets at 3 decimals,
so exact match is sufficient, not necessary. -/
theorem deviation_nonneg_and_zero_on_exact (p : PortFolio)
    (htot : p.total_value ≠ 0)
    (hres : ∀ a ∈ p.assets, a.classification.isSome = true) :
    ∃ q, p.get_difference_from_target = Except.ok q ∧ 0 ≤ q ∧
      ((∀ a ∈ p.assets, ∃ t, get_percentage_target a.classification = Except.ok t ∧
          p.get_percent_classification a.classification = Except.ok t) → q = 0) := by
  refine ⟨_, get_difference_ok p htot hres, ?_, ?_⟩
  · apply pyRound_nonneg
    apply List.sum_nonneg
    intro x hx
    rcases List.mem_map.mp hx with ⟨a, ha, rfl⟩
    exact abs_nonneg _
  · intro hexact
    have hterms : ∀ a ∈ p.assets, diff_term p a = 0 := by
      intro a ha
      obtain ⟨t, htgt, hpct⟩ := hexact a ha
      obtain ⟨c, hc⟩ := Option.isSome_iff_exists.mp (hres a ha)
      rw [hc, get_percentage_target_some] at htgt
      injection htgt with ht
      unfold PortFolio.get_percent_classification at hpct
      rw [if_neg htot] at hpct
      injection hpct with hp
      rw [diff_term, hc, target_getD]
      rw [hc] at hp
      rw [hp, ← ht]
      simp
    have hsum : (p.assets.map (diff_term p)).sum = 0 := by
      apply List.sum_eq_zero
      intro x hx
      rcases List.mem_map.mp hx with ⟨a, ha, rfl⟩
      exact hterms a ha
    rw [hsum, pyRound_zero]

/-- Claim C7 witness: the amended statement at a concrete exactly-on-target
seven-class portfolio (where the score is indeed 0). -/
theorem deviation_nonneg_and_zero_on_exact_witness :
    wP7.total_value ≠ 0 ∧
    (∃ q, wP7.get_difference_from_target = Except.ok q ∧ 0 ≤ q ∧
      ((∀ a ∈ wP7.assets, ∃ t, get_percentage_target a.classification = Except.ok t ∧
          wP7.get_percent_classification a.classification = Except.ok t) → q = 0)) :=
  ⟨by with_unfolding_all decide,
    deviation_nonneg_and_zero_on_exact wP7 (by with_unfolding_all decide)
      (by with_unfolding_all decide)⟩

/-! ### Claim C8 -/

/-- Claim C8: for every non-empty starting portfolio whose (2-decimal)
unit prices are all at least some positive δ, with resolvable classes,
positive fresh total and any budget, the rebalancing loop terminates: each
iteration spends at least δ (one or two whole shares at a price ≥ δ), so
the cash strictly decreases by at least δ per iteration and some finite
fuel suffices for the loop to return a portfolio. -/
theorem rebalance_terminates (p : PortFolio) (budget δ : ℚ)
    (hδ : 0 < δ)
    (hprice : ∀ a ∈ p.assets, δ ≤ a.market_price)
    (hres : ∀ a ∈ p.assets, a.classification.isSome = true)
    (hcents : ∀ a ∈ p.assets, isCents a.market_price)
    (htot : 0 < p.total_value)
    (hwf : p.total_value = sum_values p.assets)
    (hne : p.assets ≠ []) :
    ∃ fuel r, rebalance_portfolio fuel p budget = some r := by
  obtain ⟨n, hn⟩ := exists_nat_ge (budget / δ)
  have hbn : budget ≤ δ * n := by
    rw [div_le_iff₀ hδ] at hn
    linarith
  obtain ⟨r, hr⟩ := rebalance_loop_term hδ hprice hres hcents htot hne n budget p p
    ⟨rfl, rfl, rfl, hwf, le_refl p.total_value⟩ hbn
  exact ⟨n + 1, r, hr⟩

set_option maxRecDepth 40000 in
/-- Claim C8 witness: termination at the concrete two-asset portfolio with
all prices at least 50. -/
theorem rebalance_terminates_witness :
    ((0 : ℚ) < 50) ∧ (∃ fuel r, rebalance_portfolio fuel wP3 500 = some r) :=
  ⟨by norm_num,
    rebalance_terminates wP3 500 50 (by norm_num) (by with_unfolding_all decide)
      (by with_unfolding_all decide) (by with_unfolding_all decide)
      (by with_unfolding_all decide) (by with_unfolding_all decide)
      (by with_unfolding_all decide)⟩

/-! ### Claim C9 -/

/-- Claim C9: in the heap model (where asset objects are mutable store
cells and `copy.deepcopy` allocates fresh cells), running the allocator
leaves the starting portfolio completely unchanged: every asset reference
of the starting portfolio dereferences to the same object (same symbol,
unit price, quantity, description, classification) after the run as before
it, and the starting portfolio's cached `total_value` is untouched — the
loop only ever mutates freshly copied cells. -/
theorem rebalance_preserves_starting_portfolio (fuel : ℕ) (h : Heap)
    (p : HPortfolio) (budget : ℚ) (out : Heap × HPortfolio)
    (hvalid : ∀ r ∈ p.refs, r < h.length)
    (hrun : hRebalance_portfolio fuel h p budget = some out) :
    toPortFolio out.1 p = toPortFolio h p := by
  have hassets : p.refs.map (heapRead out.1) = p.refs.map (heapRead h) := by
    apply List.map_congr_left
    intro r hr
    unfold heapRead
    rw [hRebalance_frame hrun r (hvalid r hr)]
  unfold toPortFolio
  rw [hassets]

set_option maxRecDepth 40000 in
/-- Claim C9 witness: a concrete heap run (two assets, budget 120) returns
successfully, and the starting portfolio reads back identically from the
final heap. -/
theorem rebalance_preserves_starting_portfolio_witness :
    (∀ r ∈ wHP9.refs, r < wH9.length) ∧
    (hRebalance_portfolio 5 wH9 wHP9 120).isSome = true ∧
    Option.elim (hRebalance_portfolio 5 wH9 wHP9 120) True
      (fun out => toPortFolio out.1 wHP9 = toPortFolio wH9 wHP9) := by
  refine ⟨by with_unfolding_all decide, by with_unfolding_all decide, ?_⟩
  cases hrun : hRebalance_portfolio 5 wH9 wHP9 120 with
  | none => exact trivial
  | some out =>
    exact rebalance_preserves_starting_portfolio 5 wH9 wHP9 120 out
      (by with_unfolding_all decide) hrun

/-! ### Claim C10 -/

/-- Claim C10: asset lookup compares the requested string against the
stored upper-cased symbol with exact string equality, so any non-upper-case
variant of a held ticker finds no asset (`get_asset` returns `None` and
`buy_symbol` raises), while the exact upper-case form — the one
construction stored — always finds the position. -/
theorem lookup_case_sensitive (p : PortFolio) (s : String) (n : ℤ)
    (hstored : ∀ a ∈ p.assets, pyToUpper a.symbol = a.symbol)
    (hs : pyToUpper s ≠ s) :
    p.get_asset s = none ∧
    p.buy_symbol s n = Except.error ("No owned shares: " ++ s) ∧
    ∀ a ∈ p.assets, (p.get_asset a.symbol).isSome = true := by
  have hnone : p.assets.find? (fun x => x.symbol = s) = none := by
    apply List.find?_eq_none.mpr
    intro x hx
    simp only [decide_eq_true_eq]
    intro hxs
    exact hs (by rw [← hxs]; exact hstored x hx)
  refine ⟨?_, buy_symbol_of_none n hnone, ?_⟩
  · unfold PortFolio.get_asset
    exact hnone
  · intro a ha
    unfold PortFolio.get_asset
    rw [find?_symbol_isSome_iff]
    exact List.mem_map_of_mem Asset.symbol ha

/-- Claim C10 witness: a portfolio built from the lower-case ticker "vcit"
stores "VCIT"; looking up or buying "vcit" fails while the stored symbol is
found. -/
theorem lookup_case_sensitive_witness :
    pyToUpper "vcit" ≠ "vcit" ∧
    (wP10.get_asset "vcit" = none ∧
      wP10.buy_symbol "vcit" 1 = Except.error ("No owned shares: " ++ "vcit") ∧
      ∀ a ∈ wP10.assets, (wP10.get_asset a.symbol).isSome = true) :=
  ⟨by with_unfolding_all decide,
    lookup_case_sensitive wP10 "vcit" 1 (by with_unfolding_all decide)
      (by with_unfolding_all decide)⟩
